import Mathlib

/-!
Shallow embedding of the virtual-memory manager of the `os4` teaching kernel
(`src/os4/src/mm/memory_set.rs` and its collaborators).

Machine integers (`usize`/`u64`) are modelled as `Nat` with an explicit
`% 2 ^ 64` wherever the source arithmetic can wrap (the kernel is built in
release mode, where Rust integer arithmetic wraps).  The global frame
allocator and physical memory, which the Rust code reaches through global
state, are threaded explicitly as a `Kernel` value.  Operations that can
`panic!`/`unwrap` in the source return `none` at the corresponding point.
-/

namespace OS4

/-- Page size of the SV39 target, 4 KiB (`config::PAGE_SIZE`). -/
def PAGE_SIZE : Nat := 4096

/-- Number of values of a 64-bit machine word; `usize` arithmetic wraps modulo this. -/
def USIZE : Nat := 2 ^ 64

/-- Modelled from the spec: `config.rs` is not under `src/`; the trampoline page sits
at the fixed highest virtual page (`usize::MAX - PAGE_SIZE + 1`). -/
def TRAMPOLINE : Nat := USIZE - PAGE_SIZE

/-- Modelled from the spec: the trap-context page sits directly below the trampoline. -/
def TRAP_CONTEXT : Nat := TRAMPOLINE - PAGE_SIZE

/-- Modelled from the spec: `config.rs` is not under `src/`; the user stack spans two pages. -/
def USER_STACK_SIZE : Nat := 8192

/-- Modelled from the spec: end of usable physical memory (`config::MEMORY_END`). -/
def MEMORY_END : Nat := 0x80800000

/-- A byte buffer (a Rust `&[u8]` slice): a length together with a byte at each index.
Kept as a function so that large buffers evaluate in constant time. -/
structure Bytes where
  size : Nat
  byte : Nat → UInt8

/-- The subslice `b[off .. off + len]` of a buffer (bounds are checked by callers). -/
def Bytes.slice (b : Bytes) (off len : Nat) : Bytes :=
  ⟨len, fun i => b.byte (off + i)⟩

/-- The prefix `b[0 .. n]` of a buffer, `b` itself when it is shorter. -/
def Bytes.take (b : Bytes) (n : Nat) : Bytes :=
  ⟨min n b.size, b.byte⟩

/-- The buffer with the first `n` bytes dropped. -/
def Bytes.drop (b : Bytes) (n : Nat) : Bytes :=
  ⟨b.size - n, fun i => b.byte (n + i)⟩

/-- Page-table entry flag bits, matching the RISC-V PTE layout (`PTEFlags`). -/
def PTEFlags.V : Nat := 1

/-- Readable flag bit of a PTE. -/
def PTEFlags.R : Nat := 2

/-- Writable flag bit of a PTE. -/
def PTEFlags.W : Nat := 4

/-- Executable flag bit of a PTE. -/
def PTEFlags.X : Nat := 8

/-- User-accessible flag bit of a PTE. -/
def PTEFlags.U : Nat := 16

/-- A leaf page-table entry: target physical page number plus flag bits. -/
structure PageTableEntry where
  ppn : Nat
  flags : Nat
deriving DecidableEq

/-- Whether the User-accessible bit of the entry is set. -/
def PageTableEntry.is_user (e : PageTableEntry) : Bool :=
  e.flags &&& PTEFlags.U != 0

/-- Whether the Writable bit of the entry is set. -/
def PageTableEntry.writable (e : PageTableEntry) : Bool :=
  e.flags &&& PTEFlags.W != 0

/-- Modelled from the spec: `page_table.rs` is not under `src/`.  The three-level
SV39 radix tree is abstracted to the finite map it implements: a list of
(VPN, leaf entry) pairs, newest first.  Intermediate-node frames, which the spec
says are allocated lazily, are not modelled. -/
structure PageTable where
  entries : List (Nat × PageTableEntry)
deriving DecidableEq

/-- An empty page table (`PageTable::new`; the root-frame allocation is not modelled). -/
def PageTable.new : PageTable := ⟨[]⟩

/-- Modelled from the spec: `translate(vpn)` returns a copy of the leaf entry if valid. -/
def PageTable.translate (pt : PageTable) (vpn : Nat) : Option PageTableEntry :=
  (pt.entries.find? (fun e => e.1 = vpn)).map Prod.snd

/-- Modelled from the spec: `map(vpn, ppn, flags)` installs a leaf mapping with the
Valid bit added, and fails (an invariant-violation panic in the source) if `vpn`
is already mapped. -/
def PageTable.map (pt : PageTable) (vpn ppn flags : Nat) : Option PageTable :=
  match pt.translate vpn with
  | some _ => none
  | none => some ⟨(vpn, ⟨ppn, flags ||| PTEFlags.V⟩) :: pt.entries⟩

/-- Modelled from the spec: `unmap(vpn)` clears the leaf entry and fails if `vpn`
is not mapped. -/
def PageTable.unmap (pt : PageTable) (vpn : Nat) : Option PageTable :=
  match pt.translate vpn with
  | some _ => some ⟨pt.entries.filter (fun e => e.1 ≠ vpn)⟩
  | none => none

/-- Modelled from the spec: `frame_allocator.rs` is not under `src/`.  A recycling
list of freed frames serviced first (stack discipline), falling back to a
monotonically increasing never-yet-issued cursor bounded by the pool end. -/
structure FrameAllocator where
  current : Nat
  end_ : Nat
  recycled : List Nat
deriving DecidableEq

/-- Modelled from the spec: `alloc` pops the recycling list first, else advances the
cursor, and returns nothing when the pool is exhausted. -/
def FrameAllocator.alloc (fa : FrameAllocator) : Option (Nat × FrameAllocator) :=
  match fa.recycled with
  | p :: rest => some (p, ⟨fa.current, fa.end_, rest⟩)
  | [] =>
    if fa.current < fa.end_ then
      some (fa.current, ⟨fa.current + 1, fa.end_, []⟩)
    else
      none

/-- Modelled from the spec: `dealloc(ppn)` returns a frame to the recycling list.
The panic on a never-allocated or double-freed frame is not modelled. -/
def FrameAllocator.dealloc (fa : FrameAllocator) (ppn : Nat) : FrameAllocator :=
  ⟨fa.current, fa.end_, ppn :: fa.recycled⟩

/-- Modelled from the spec: `available_count` reports frames currently free
(`get_num_empty_frame` in the source). -/
def FrameAllocator.availableCount (fa : FrameAllocator) : Nat :=
  fa.recycled.length + (fa.end_ - fa.current)

/-- Byte-addressed physical memory. -/
def PhysMem : Type := Nat → UInt8

/-- Zero-fill one physical frame (every successful `alloc` zero-fills its frame). -/
def zeroPage (m : PhysMem) (ppn : Nat) : PhysMem :=
  fun a => if ppn * PAGE_SIZE ≤ a ∧ a < (ppn + 1) * PAGE_SIZE then 0 else m a

/-- Write a byte buffer into physical memory starting at byte address `base`. -/
def writeBytes (m : PhysMem) (base : Nat) (bs : Bytes) : PhysMem :=
  fun a => if base ≤ a ∧ a < base + bs.size then bs.byte (a - base) else m a

/-- The global mutable state the memory manager reaches through globals in the
source: the frame allocator and physical memory. -/
structure Kernel where
  fa : FrameAllocator
  mem : PhysMem

/-- Allocate one frame and zero-fill it (`frame_alloc` plus the `FrameTracker`
zero-fill side effect). -/
def Kernel.allocFrame (k : Kernel) : Option (Nat × Kernel) :=
  match k.fa.alloc with
  | some (ppn, fa') => some (ppn, ⟨fa', zeroPage k.mem ppn⟩)
  | none => none

/-- Return one frame to the allocator (`frame_dealloc`, run by `FrameTracker::drop`). -/
def Kernel.deallocFrame (k : Kernel) (ppn : Nat) : Kernel :=
  ⟨k.fa.dealloc ppn, k.mem⟩

/-- Modelled from the spec: `address.rs` is not under `src/`; a virtual address
rounds down to its page number. -/
def vaFloor (va : Nat) : Nat := va / PAGE_SIZE

/-- Modelled from the spec: a virtual address rounds up to the next page boundary. -/
def vaCeil (va : Nat) : Nat := (va + PAGE_SIZE - 1) / PAGE_SIZE

/-- Modelled from the spec: the page-offset part of a virtual address. -/
def pageOffset (va : Nat) : Nat := va % PAGE_SIZE

/-- Modelled from the spec: `VirtAddr::from(VirtPageNum)`, a wrapping left shift by
the page-size bits. -/
def vpnToVa (vpn : Nat) : Nat := vpn * PAGE_SIZE % USIZE

/-- A half-open range of virtual page numbers (`VPNRange`). -/
structure VPNRange where
  l : Nat
  r : Nat
deriving DecidableEq

/-- Start of the range (`get_start`). -/
def VPNRange.get_start (r : VPNRange) : Nat := r.l

/-- One-past-the-end of the range (`get_end`). -/
def VPNRange.get_end (r : VPNRange) : Nat := r.r

/-- The pages of the range in iteration order (empty when `r ≤ l`). -/
def VPNRange.list (r : VPNRange) : List Nat :=
  (List.range (r.r - r.l)).map (fun i => r.l + i)

/-- Membership of a page in the range. -/
def VPNRange.mem (r : VPNRange) (vpn : Nat) : Prop :=
  r.l ≤ vpn ∧ vpn < r.r

instance (r : VPNRange) (vpn : Nat) : Decidable (r.mem vpn) := by
  unfold VPNRange.mem; infer_instance

/-- Mapping policy of a logical segment (`MapType`): direct or frame-backed. -/
inductive MapType where
  | Identical
  | Framed
deriving DecidableEq

/-- `MapPermission::R` (bit 1, matching the PTE Readable bit). -/
def MapPermission.R : Nat := 2

/-- `MapPermission::W` (bit 2, matching the PTE Writable bit). -/
def MapPermission.W : Nat := 4

/-- `MapPermission::X` (bit 3, matching the PTE Executable bit). -/
def MapPermission.X : Nat := 8

/-- `MapPermission::U` (bit 4, matching the PTE User-accessible bit). -/
def MapPermission.U : Nat := 16

/-- A logical segment (`MapArea`): a VPN range, the frames it owns (the
`BTreeMap<VirtPageNum, FrameTracker>`, modelled as an association list in
insertion order), a mapping policy, and a permission set. -/
structure MapArea where
  vpn_range : VPNRange
  data_frames : List (Nat × Nat)
  map_type : MapType
  map_perm : Nat
deriving DecidableEq

/-- `MapArea::new`: round `start_va` down and `end_va` up to page boundaries. -/
def MapArea.new (start_va end_va : Nat) (t : MapType) (perm : Nat) : MapArea :=
  ⟨⟨vaFloor start_va, vaCeil end_va⟩, [], t, perm⟩

/-- `MapArea::map_one`: map a single VPN; under `Identical` the PPN equals the VPN,
under `Framed` a fresh zero-filled frame is allocated and recorded as owned.
`frame_alloc().unwrap()` and `PageTable::map`'s panic become `none`. -/
def MapArea.map_one (a : MapArea) (pt : PageTable) (k : Kernel) (vpn : Nat) :
    Option (MapArea × PageTable × Kernel) :=
  match a.map_type with
  | MapType.Identical =>
    match pt.map vpn vpn a.map_perm with
    | some pt' => some (a, pt', k)
    | none => none
  | MapType.Framed =>
    match k.allocFrame with
    | some (ppn, k') =>
      let a' : MapArea := ⟨a.vpn_range, a.data_frames ++ [(vpn, ppn)], a.map_type, a.map_perm⟩
      match pt.map vpn ppn a.map_perm with
      | some pt' => some (a', pt', k')
      | none => none
    | none => none

/-- The body of `MapArea::map`'s `for vpn in self.vpn_range` loop over a list of pages. -/
def MapArea.mapLoop (a : MapArea) (pt : PageTable) (k : Kernel) :
    List Nat → Option (MapArea × PageTable × Kernel)
  | [] => some (a, pt, k)
  | v :: rest =>
    match a.map_one pt k v with
    | some (a', pt', k') => MapArea.mapLoop a' pt' k' rest
    | none => none

/-- `MapArea::map`: map every page of the range. -/
def MapArea.map (a : MapArea) (pt : PageTable) (k : Kernel) :
    Option (MapArea × PageTable × Kernel) :=
  a.mapLoop pt k a.vpn_range.list

/-- `MapArea::unmap_one`: for a frame-backed segment remove and release the owned
frame, then clear the PTE (whose absence is a panic, hence `none`). -/
def MapArea.unmap_one (a : MapArea) (pt : PageTable) (k : Kernel) (vpn : Nat) :
    Option (MapArea × PageTable × Kernel) :=
  let step : MapArea × Kernel :=
    match a.map_type with
    | MapType.Framed =>
      match a.data_frames.find? (fun e => e.1 = vpn) with
      | some (_, ppn) =>
        (⟨a.vpn_range, a.data_frames.filter (fun e => e.1 ≠ vpn), a.map_type, a.map_perm⟩,
          k.deallocFrame ppn)
      | none => (a, k)
    | MapType.Identical => (a, k)
  match pt.unmap vpn with
  | some pt' => some (step.1, pt', step.2)
  | none => none

/-- The body of `MapArea::unmap`'s loop over a list of pages. -/
def MapArea.unmapLoop (a : MapArea) (pt : PageTable) (k : Kernel) :
    List Nat → Option (MapArea × PageTable × Kernel)
  | [] => some (a, pt, k)
  | v :: rest =>
    match a.unmap_one pt k v with
    | some (a', pt', k') => MapArea.unmapLoop a' pt' k' rest
    | none => none

/-- `MapArea::unmap`: unmap every page of the range, releasing owned frames. -/
def MapArea.unmap (a : MapArea) (pt : PageTable) (k : Kernel) :
    Option (MapArea × PageTable × Kernel) :=
  a.unmapLoop pt k a.vpn_range.list

/-- One iteration ceiling: the number of iterations `MapArea::copy_data`'s loop
performs for a buffer of `len` bytes (one iteration happens even for `len = 0`). -/
def iterCount (len : Nat) : Nat := (len - 1) / PAGE_SIZE + 1

/-- The loop of `MapArea::copy_data`: copy up to a page, break once past the end,
else step to the next VPN.  `fuel` is a structural bound on the iteration count;
`copy_data` passes `data.size / PAGE_SIZE + 1 ≥ iterCount data.size`, so the
fuel never runs out.  The `translate(..).unwrap()` panic becomes `none`. -/
def copyPages : Nat → PageTable → PhysMem → Nat → Bytes → Option PhysMem
  | 0, _, _, _, _ => none
  | fuel + 1, pt, mem, vpn, data =>
    match pt.translate vpn with
    | none => none
    | some pte =>
      let src := data.take PAGE_SIZE
      let mem' := writeBytes mem (pte.ppn * PAGE_SIZE) src
      if data.size ≤ PAGE_SIZE then some mem'
      else copyPages fuel pt mem' (vpn + 1) (data.drop PAGE_SIZE)

/-- `MapArea::copy_data`: copy a page-aligned-start buffer into the backing frames
page by page; the `assert_eq!(self.map_type, MapType::Framed)` becomes `none`. -/
def MapArea.copy_data (a : MapArea) (pt : PageTable) (mem : PhysMem) (data : Bytes) :
    Option PhysMem :=
  if a.map_type = MapType.Framed then
    copyPages (data.size / PAGE_SIZE + 1) pt mem a.vpn_range.get_start data
  else
    none

/-- An address space (`MemorySet`): a page table plus its ordered segment list. -/
structure MemorySet where
  page_table : PageTable
  areas : List MapArea

/-- `MemorySet::new_bare`: a root-only page table and no segments. -/
def MemorySet.new_bare : MemorySet := ⟨PageTable.new, []⟩

/-- `MemorySet::push`: map the segment, optionally copy data into it, then record
it in the segment list — the single mutation point for adding a segment. -/
def MemorySet.push (ms : MemorySet) (k : Kernel) (area : MapArea) (data : Option Bytes) :
    Option (MemorySet × Kernel) :=
  match area.map ms.page_table k with
  | some (a', pt', k') =>
    match data with
    | some d =>
      match a'.copy_data pt' k'.mem d with
      | some mem' => some (⟨pt', ms.areas ++ [a']⟩, ⟨k'.fa, mem'⟩)
      | none => none
    | none => some (⟨pt', ms.areas ++ [a']⟩, k')
  | none => none

/-- `MemorySet::insert_framed_area`: push a fresh frame-backed segment with no data. -/
def MemorySet.insert_framed_area (ms : MemorySet) (k : Kernel)
    (start_va end_va perm : Nat) : Option (MemorySet × Kernel) :=
  ms.push k (MapArea.new start_va end_va MapType.Framed perm) none

/-- `MemorySet::map_trampoline`: map the fixed trampoline page to the physical page
holding the trap stub, Readable and Executable, outside the segment list.
`strampolinePA` stands for the extern symbol `strampoline`. -/
def MemorySet.map_trampoline (ms : MemorySet) (strampolinePA : Nat) :
    Option MemorySet :=
  match ms.page_table.map (vaFloor TRAMPOLINE) (vaFloor strampolinePA)
      (PTEFlags.R ||| PTEFlags.X) with
  | some pt' => some ⟨pt', ms.areas⟩
  | none => none

/-- Modelled from the spec: `vpn_range_is_unused` (in the absent `page_table.rs`)
checks that none of the `len_n` pages starting at page `start_n` is mapped. -/
def vpn_range_is_unused (pt : PageTable) (start_n len_n : Nat) : Bool :=
  (List.range len_n).all (fun j => (pt.translate (start_n + j)).isNone)

/-- Modelled from the spec: `vpn_range_is_used` (in the absent `page_table.rs`)
checks that every page covered by the byte range `[start, start + len)` is mapped. -/
def vpn_range_is_used (pt : PageTable) (start len : Nat) : Bool :=
  (List.range ((start + len) % USIZE / PAGE_SIZE - start / PAGE_SIZE)).all
    (fun j => (pt.translate (start / PAGE_SIZE + j)).isSome)

/-- The page count `(len - 1 + PAGE_SIZE) / PAGE_SIZE` computed by `mmap` on
wrapping `usize` arithmetic; it equals `⌈len / PAGE_SIZE⌉` for
`0 < len ≤ 2 ^ 64 - PAGE_SIZE` and wraps otherwise (e.g. it is `0` at `len = 0`). -/
def mmapLenN (len : Nat) : Nat :=
  ((len + (USIZE - 1)) % USIZE + PAGE_SIZE) % USIZE / PAGE_SIZE

/-- The permission set `mmap` builds from the low three `port` bits, always
including `MapPermission::U`. -/
def portPerm (port : Nat) : Nat :=
  let p := MapPermission.U
  let p := if port &&& 1 != 0 then p ||| MapPermission.R else p
  let p := if port &&& 2 != 0 then p ||| MapPermission.W else p
  if port &&& 4 != 0 then p ||| MapPermission.X else p

/-- `MemorySet::mmap`: validate alignment, permission bits, free-frame count and
target-range freeness; on failure return `-1` with nothing changed; a zero-length
request succeeds trivially; otherwise insert one frame-backed user segment over
the rounded-up range. -/
def MemorySet.mmap (ms : MemorySet) (k : Kernel) (start len port : Nat) :
    Option (Int × MemorySet × Kernel) :=
  let len_n := mmapLenN len
  let start_n := start / PAGE_SIZE
  if pageOffset start ≠ 0 ∨ port &&& (USIZE - 8) ≠ 0 ∨ port &&& 7 = 0
      ∨ k.fa.availableCount < len_n
      ∨ vpn_range_is_unused ms.page_table start_n len_n = false then
    some (-1, ms, k)
  else if len = 0 then
    some (0, ms, k)
  else
    match ms.insert_framed_area k (vpnToVa start_n) (vpnToVa (len_n + start_n))
        (portPerm port) with
    | some (ms', k') => some (0, ms', k')
    | none => none

/-- The `for map_area in &mut self.areas` loop of `munmap`: unmap the first segment
whose range starts exactly at `start_va` and ends at or before `end_va`, leave
every other segment untouched, and stop at the first match.  The matched
segment's record stays in the list (only its pages and frames are released). -/
def munmapLoop (pt : PageTable) (k : Kernel) (start_va end_va : Nat) :
    List MapArea → Option (List MapArea × PageTable × Kernel)
  | [] => some ([], pt, k)
  | a :: rest =>
    if a.vpn_range.get_start = start_va ∧ a.vpn_range.get_end ≤ end_va then
      match a.unmap pt k with
      | some (a', pt', k') => some (a' :: rest, pt', k')
      | none => none
    else
      match munmapLoop pt k start_va end_va rest with
      | some (rest', pt', k') => some (a :: rest', pt', k')
      | none => none

/-- `MemorySet::munmap`: validate that `start` and `len` are page-size multiples and
the requested range is mapped; on failure return `-1` with nothing changed; on
success unmap the first qualifying segment and return `0`. -/
def MemorySet.munmap (ms : MemorySet) (k : Kernel) (start len : Nat) :
    Option (Int × MemorySet × Kernel) :=
  if start % PAGE_SIZE ≠ 0 ∨ vpn_range_is_used ms.page_table start len = false
      ∨ len % PAGE_SIZE ≠ 0 then
    some (-1, ms, k)
  else
    match munmapLoop ms.page_table k (start / PAGE_SIZE) ((len + start) % USIZE / PAGE_SIZE)
        ms.areas with
    | some (areas', pt', k') => some (0, ⟨pt', areas'⟩, k')
    | none => none

/-- The type of an ELF program header (`xmas_elf::program::Type`), reduced to the
one distinction `from_elf` makes: loadable or not. -/
inductive PhType where
  | Load
  | Other
deriving DecidableEq

/-- One ELF program header, holding exactly the fields `from_elf` reads. -/
structure ProgHeader where
  ptype : PhType
  virtual_addr : Nat
  mem_size : Nat
  offset : Nat
  file_size : Nat
  is_read : Bool
  is_write : Bool
  is_execute : Bool
deriving DecidableEq

/-- A parsed ELF image (the view `xmas_elf::ElfFile` gives `from_elf`): the magic
bytes, the program headers, the raw input bytes and the entry point. -/
structure ElfFile where
  magic : List UInt8
  phs : List ProgHeader
  input : Bytes
  entry_point : Nat

/-- The permission set `from_elf` builds for a loadable header: always
`MapPermission::U`, plus `R`/`W`/`X` from the header's flags. -/
def phPerm (ph : ProgHeader) : Nat :=
  let p := MapPermission.U
  let p := if ph.is_read then p ||| MapPermission.R else p
  let p := if ph.is_write then p ||| MapPermission.W else p
  if ph.is_execute then p ||| MapPermission.X else p

/-- The segment `from_elf` creates for a loadable header: frame-backed, spanning
the page-rounded `[virtual_addr, virtual_addr + mem_size)` (a wrapping `u64` sum). -/
def phArea (ph : ProgHeader) : MapArea :=
  MapArea.new ph.virtual_addr ((ph.virtual_addr + ph.mem_size) % USIZE)
    MapType.Framed (phPerm ph)

/-- The `for i in 0..ph_count` loop of `from_elf`: push one frame-backed segment
per loadable header together with its file bytes, skip other headers, and track
`max_end_vpn`, which is overwritten with the end of each loadable segment in
turn (so it ends up holding the end of the last one).  The out-of-bounds slice
panic of `&elf.input[..]` becomes `none`. -/
def elfLoop (input : Bytes) :
    List ProgHeader → MemorySet → Kernel → Nat → Option (MemorySet × Kernel × Nat)
  | [], ms, k, maxEnd => some (ms, k, maxEnd)
  | ph :: rest, ms, k, maxEnd =>
    match ph.ptype with
    | PhType.Load =>
      let area := phArea ph
      let maxEnd' := area.vpn_range.get_end
      if ph.offset + ph.file_size ≤ input.size then
        match ms.push k area (some (input.slice ph.offset ph.file_size)) with
        | some (ms', k') => elfLoop input rest ms' k' maxEnd'
        | none => none
    else none
    | PhType.Other => elfLoop input rest ms k maxEnd

/-- The last-loadable-segment end page `from_elf`'s loop leaves in `max_end_vpn`
(`0` when the image has no loadable header). -/
def lastLoadEnd (phs : List ProgHeader) : Nat :=
  phs.foldl (fun acc ph => match ph.ptype with
    | PhType.Load => (phArea ph).vpn_range.get_end
    | PhType.Other => acc) 0

/-- `MemorySet::from_elf`: map the trampoline, check the four ELF magic bytes,
load every loadable program header, then append the user stack (one guard page
above `max_end_vpn`) and the trap-context page; returns the space, the threaded
kernel state, the top-of-stack address and the entry point.  Panics (bad magic,
mapping conflicts, frame exhaustion, bad slices) become `none`. -/
def MemorySet.from_elf (strampolinePA : Nat) (elf : ElfFile) (k : Kernel) :
    Option (MemorySet × Kernel × Nat × Nat) :=
  (MemorySet.new_bare.map_trampoline strampolinePA).bind fun ms1 =>
    if elf.magic = [0x7f, 0x45, 0x4c, 0x46] then
      (elfLoop elf.input elf.phs ms1 k 0).bind fun r2 =>
        let user_stack_bottom := (vpnToVa r2.2.2 + PAGE_SIZE) % USIZE
        let user_stack_top := (user_stack_bottom + USER_STACK_SIZE) % USIZE
        (r2.1.push r2.2.1 (MapArea.new user_stack_bottom user_stack_top MapType.Framed
            (MapPermission.R ||| MapPermission.W ||| MapPermission.U)) none).bind fun r3 =>
          (r3.1.push r3.2 (MapArea.new TRAP_CONTEXT TRAMPOLINE MapType.Framed
              (MapPermission.R ||| MapPermission.W)) none).bind fun r4 =>
            some (r4.1, r4.2, user_stack_top, elf.entry_point)
    else none

/-- The link-time section boundaries `new_kernel` reads through extern symbols. -/
structure KernelLayout where
  stext : Nat
  etext : Nat
  srodata : Nat
  erodata : Nat
  sdata : Nat
  edata : Nat
  sbss_with_stack : Nat
  ebss : Nat
  ekernel : Nat
  strampoline : Nat
deriving DecidableEq

/-- `MemorySet::new_kernel`: map the trampoline, then push one direct-mapped
segment per kernel image section (`.text` R+X, `.rodata` R, `.data` R+W,
`.bss` R+W) and one direct R+W segment spanning the rest of physical memory. -/
def MemorySet.new_kernel (L : KernelLayout) (k : Kernel) : Option (MemorySet × Kernel) :=
  (MemorySet.new_bare.map_trampoline L.strampoline).bind fun ms0 =>
    (ms0.push k (MapArea.new L.stext L.etext MapType.Identical
        (MapPermission.R ||| MapPermission.X)) none).bind fun r1 =>
      (r1.1.push r1.2 (MapArea.new L.srodata L.erodata MapType.Identical
          MapPermission.R) none).bind fun r2 =>
        (r2.1.push r2.2 (MapArea.new L.sdata L.edata MapType.Identical
            (MapPermission.R ||| MapPermission.W)) none).bind fun r3 =>
          (r3.1.push r3.2 (MapArea.new L.sbss_with_stack L.ebss MapType.Identical
              (MapPermission.R ||| MapPermission.W)) none).bind fun r4 =>
            (r4.1.push r4.2 (MapArea.new L.ekernel MEMORY_END MapType.Identical
                (MapPermission.R ||| MapPermission.W)) none).bind fun r5 =>
              some (r5.1, r5.2)

/-- `MemorySet::translate`: delegate to the page table. -/
def MemorySet.translate (ms : MemorySet) (vpn : Nat) : Option PageTableEntry :=
  ms.page_table.translate vpn

/-- Read the byte at virtual address `va` through a page table: translate the
page number, then index the backing physical frame. -/
def readVByte (pt : PageTable) (mem : PhysMem) (va : Nat) : Option UInt8 :=
  (pt.translate (va / PAGE_SIZE)).map
    (fun pte => mem (pte.ppn * PAGE_SIZE + va % PAGE_SIZE))

/-- The all-zero physical memory, used by concrete examples. -/
def memZero : PhysMem := fun _ => 0

/-- A small concrete kernel state: 64 free frames starting at PPN 0, zeroed memory. -/
def k0 : Kernel := ⟨⟨0, 64, []⟩, memZero⟩

/-- A concrete kernel state whose pool is as large as the SV39 page space, used to
exhibit the wrap-around behaviour of `mmap`'s page-count computation. -/
def kBig : Kernel := ⟨⟨0, 2 ^ 52, []⟩, memZero⟩

/-- A concrete ELF image whose two loadable headers are in descending address
order: the first ends at page 10, the second (the last) at page 4. -/
def elfDesc : ElfFile :=
  ⟨[0x7f, 0x45, 0x4c, 0x46],
    [⟨PhType.Load, 8 * 4096, 2 * 4096, 0, 0, true, false, false⟩,
     ⟨PhType.Load, 2 * 4096, 2 * 4096, 0, 0, true, true, false⟩],
    ⟨0, fun _ => 0⟩, 555⟩

/-- A concrete one-header ELF image (one read+execute page at address 0). -/
def elfOne : ElfFile :=
  ⟨[0x7f, 0x45, 0x4c, 0x46], [⟨PhType.Load, 0, 4096, 0, 0, true, false, true⟩],
    ⟨0, fun _ => 0⟩, 777⟩

/-- The number of loadable program headers of an image. -/
def loadCount (phs : List ProgHeader) : Nat :=
  (phs.filter (fun ph => ph.ptype = PhType.Load)).length

/-- What `from_elf` guarantees for one loadable header in a resulting state: a
frame-backed segment spanning the page-rounded `[virtual_addr, virtual_addr +
mem_size)` with the header-derived permissions, every one of its pages mapped
(to a frame below the allocator watermark `bound`), the header's `file_size`
bytes of the image readable through the page table at the segment's start, and
every later byte of the covered pages reading as zero. -/
def phSegProp (input : Bytes) (ph : ProgHeader) (pt : PageTable) (mem : PhysMem)
    (areas : List MapArea) (bound : Nat) : Prop :=
  ∃ a ∈ areas,
    a.vpn_range = ⟨vaFloor ph.virtual_addr,
      vaCeil ((ph.virtual_addr + ph.mem_size) % USIZE)⟩ ∧
    a.map_type = MapType.Framed ∧ a.map_perm = phPerm ph ∧
    ph.file_size ≤ (a.vpn_range.get_end - a.vpn_range.get_start) * PAGE_SIZE ∧
    (∀ j, j < a.vpn_range.get_end - a.vpn_range.get_start →
      ∃ q, pt.translate (a.vpn_range.get_start + j) =
        some ⟨q, phPerm ph ||| PTEFlags.V⟩ ∧ q < bound) ∧
    (∀ i, i < ph.file_size →
      readVByte pt mem (a.vpn_range.get_start * PAGE_SIZE + i) =
        some (input.byte (ph.offset + i))) ∧
    (∀ i, ph.file_size ≤ i →
      i < (a.vpn_range.get_end - a.vpn_range.get_start) * PAGE_SIZE →
      readVByte pt mem (a.vpn_range.get_start * PAGE_SIZE + i) = some 0)

/-- A concrete ELF image whose second loadable header's `file_size` exceeds its
page-rounded memory span by one byte, so its `copy_data` walks one page past
its own segment into the first header's first frame. -/
def elfClobber : ElfFile :=
  ⟨[0x7f, 0x45, 0x4c, 0x46],
    [⟨PhType.Load, 4 * 4096, 2 * 4096, 0, 1, true, false, false⟩,
     ⟨PhType.Load, 2 * 4096, 2 * 4096, 1, 2 * 4096 + 1, true, true, false⟩,
     ⟨PhType.Load, 20 * 4096, 4096, 0, 0, true, false, false⟩],
    ⟨8200, fun i => UInt8.ofNat (i % 251)⟩, 99⟩

/-- The virtual page number of the trampoline page. -/
def trampVPN : Nat := TRAMPOLINE / PAGE_SIZE

/-- The trampoline invariant of an address space: the trampoline page is mapped
(to the trap-stub frame, Readable and Executable, Valid, and nothing else) and
no recorded segment's range contains the trampoline page. -/
def trampInv (sPA : Nat) (ms : MemorySet) : Prop :=
  ms.page_table.translate trampVPN =
    some ⟨sPA / PAGE_SIZE, (PTEFlags.R ||| PTEFlags.X) ||| PTEFlags.V⟩ ∧
  ∀ a ∈ ms.areas, ¬ a.vpn_range.mem trampVPN

instance (sPA : Nat) (ms : MemorySet) : Decidable (trampInv sPA ms) := by
  unfold trampInv
  infer_instance

theorem translate_map_some {pt pt' : PageTable} {vpn ppn f : Nat}
    (h : pt.map vpn ppn f = some pt') :
    pt.translate vpn = none ∧
      pt'.translate vpn = some ⟨ppn, f ||| PTEFlags.V⟩ ∧
      ∀ w, w ≠ vpn → pt'.translate w = pt.translate w := by
  unfold PageTable.map at h
  cases htv : pt.translate vpn with
  | some e => rw [htv] at h; exact absurd h (by simp)
  | none =>
    rw [htv] at h
    injection h with h
    subst h
    refine ⟨rfl, ?_, ?_⟩
    · simp [PageTable.translate]
    · intro w hw
      simp only [PageTable.translate]
      rw [List.find?_cons_of_neg _ (by simpa using Ne.symm hw)]

theorem filter_find?_ne {l : List (Nat × PageTableEntry)} {vpn w : Nat} (hw : w ≠ vpn) :
    List.find? (fun e => e.1 = w) (l.filter (fun e => e.1 ≠ vpn)) =
      List.find? (fun e => e.1 = w) l := by
  induction l with
  | nil => rfl
  | cons x xs ih =>
    by_cases hx : x.1 = vpn
    · have hxw : x.1 ≠ w := by rw [hx]; exact Ne.symm hw
      rw [List.filter_cons_of_neg (by simpa using hx),
        List.find?_cons_of_neg _ (by simpa using hxw)]
      exact ih
    · rw [List.filter_cons_of_pos (by simpa using hx)]
      by_cases hxw : x.1 = w
      · rw [List.find?_cons_of_pos _ (by simpa using hxw),
          List.find?_cons_of_pos _ (by simpa using hxw)]
      · rw [List.find?_cons_of_neg _ (by simpa using hxw),
          List.find?_cons_of_neg _ (by simpa using hxw)]
        exact ih

theorem filter_find?_self {l : List (Nat × PageTableEntry)} {vpn : Nat} :
    List.find? (fun e => e.1 = vpn) (l.filter (fun e => e.1 ≠ vpn)) = none := by
  rw [List.find?_eq_none]
  intro x hx
  have := List.of_mem_filter hx
  simpa using fun h => absurd h (by simpa using this)

theorem translate_unmap_some {pt pt' : PageTable} {vpn : Nat}
    (h : pt.unmap vpn = some pt') :
    (pt.translate vpn).isSome ∧
      pt'.translate vpn = none ∧
      ∀ w, w ≠ vpn → pt'.translate w = pt.translate w := by
  unfold PageTable.unmap at h
  cases htv : pt.translate vpn with
  | none => rw [htv] at h; exact absurd h (by simp)
  | some e =>
    rw [htv] at h
    injection h with h
    subst h
    refine ⟨by simp [htv], ?_, ?_⟩
    · simp only [PageTable.translate]
      rw [filter_find?_self]
      rfl
    · intro w hw
      simp only [PageTable.translate]
      rw [filter_find?_ne hw]

theorem mem_range_list {r : VPNRange} {v : Nat} : v ∈ r.list ↔ r.mem v := by
  simp only [VPNRange.list, VPNRange.mem, List.mem_map, List.mem_range]
  constructor
  · rintro ⟨i, hi, rfl⟩; omega
  · rintro ⟨h1, h2⟩; exact ⟨v - r.l, by omega, by omega⟩

/-- C1: whenever `mmap`'s validation fails (`start` misaligned, a `port` bit outside
the low three, all three low bits clear, fewer free frames than the rounded-up
page count, or some target page already mapped), `mmap` returns `-1` and leaves
the page table, the segment list and the kernel state (free-frame count and
memory) untouched; likewise `munmap` returns `-1` and mutates nothing when
`start` or `len` is not a page-size multiple or the range is not fully mapped. -/
theorem mmap_munmap_validation_failure_mutates_nothing (ms : MemorySet) (k : Kernel) :
    (∀ start len port : Nat,
      (pageOffset start ≠ 0 ∨ port &&& (USIZE - 8) ≠ 0 ∨ port &&& 7 = 0
        ∨ k.fa.availableCount < mmapLenN len
        ∨ vpn_range_is_unused ms.page_table (start / PAGE_SIZE) (mmapLenN len) = false) →
      ms.mmap k start len port = some (-1, ms, k)) ∧
    (∀ start len : Nat,
      (start % PAGE_SIZE ≠ 0 ∨ vpn_range_is_used ms.page_table start len = false
        ∨ len % PAGE_SIZE ≠ 0) →
      ms.munmap k start len = some (-1, ms, k)) := by
  constructor
  · intro start len port h
    simp only [MemorySet.mmap]
    rw [if_pos h]
  · intro start len h
    simp only [MemorySet.munmap]
    rw [if_pos h]

theorem mmap_munmap_validation_failure_mutates_nothing_witness :
    MemorySet.new_bare.mmap k0 5 4096 1 = some (-1, MemorySet.new_bare, k0) ∧
    MemorySet.new_bare.munmap k0 5 4096 = some (-1, MemorySet.new_bare, k0) :=
  ⟨(mmap_munmap_validation_failure_mutates_nothing MemorySet.new_bare k0).1 5 4096 1
      (Or.inl (by decide)),
    (mmap_munmap_validation_failure_mutates_nothing MemorySet.new_bare k0).2 5 4096
      (Or.inl (by decide))⟩

/-- C4: a zero-length `mmap` request with aligned start and valid permission bits
returns success, creates no segment, and leaves everything unchanged; the page
count the code computes wraps around at `len = 0` and evaluates to `0`. -/
theorem mmap_zero_length_trivial_success (ms : MemorySet) (k : Kernel) (start port : Nat)
    (h1 : pageOffset start = 0) (h2 : port &&& (USIZE - 8) = 0) (h3 : port &&& 7 ≠ 0) :
    ms.mmap k start 0 port = some (0, ms, k) := by
  have hlen : mmapLenN 0 = 0 := by decide
  simp only [MemorySet.mmap, hlen]
  have hcond : ¬ (pageOffset start ≠ 0 ∨ port &&& (USIZE - 8) ≠ 0 ∨ port &&& 7 = 0
      ∨ k.fa.availableCount < 0
      ∨ vpn_range_is_unused ms.page_table (start / PAGE_SIZE) 0 = false) := by
    simp [h1, h2, h3, vpn_range_is_unused]
  rw [if_neg hcond]
  simp

theorem mmap_zero_length_trivial_success_witness :
    MemorySet.new_bare.mmap k0 4096 0 3 = some (0, MemorySet.new_bare, k0) :=
  mmap_zero_length_trivial_success MemorySet.new_bare k0 4096 3
    (by decide) (by decide) (by decide)

theorem mapLoop_identical {L : List Nat} {a a' : MapArea} {pt pt' : PageTable}
    {k k' : Kernel} (ht : a.map_type = MapType.Identical)
    (h : a.mapLoop pt k L = some (a', pt', k')) :
    a' = a ∧ k' = k ∧
      (∀ v ∈ L, pt'.translate v = some ⟨v, a.map_perm ||| PTEFlags.V⟩) ∧
      (∀ w, w ∉ L → pt'.translate w = pt.translate w) := by
  induction L generalizing a pt k with
  | nil =>
    unfold MapArea.mapLoop at h
    injection h with hval
    injection hval with h1 h23
    injection h23 with h2 h3
    subst h1; subst h2; subst h3
    exact ⟨rfl, rfl, by simp, fun w _ => rfl⟩
  | cons v rest ih =>
    unfold MapArea.mapLoop at h
    cases hm : a.map_one pt k v with
    | none => rw [hm] at h; cases h
    | some r =>
      obtain ⟨a1, pt1, k1⟩ := r
      rw [hm] at h
      unfold MapArea.map_one at hm
      rw [ht] at hm
      cases hpm : pt.map v v a.map_perm with
      | none => rw [hpm] at hm; cases hm
      | some ptm =>
        rw [hpm] at hm
        injection hm with hval
        injection hval with h1 h23
        injection h23 with h2 h3
        subst h1; subst h2; subst h3
        obtain ⟨hfree, hself, hother⟩ := translate_map_some hpm
        obtain ⟨ha', hk', hin, hout⟩ := ih ht h
        refine ⟨ha', hk', ?_, ?_⟩
        · intro v0 hv0
          rcases List.mem_cons.mp hv0 with rfl | hv0rest
          · by_cases hvr : v0 ∈ rest
            · exact hin v0 hvr
            · rw [hout v0 hvr, hself]
          · exact hin v0 hv0rest
        · intro w hw
          have hwv : w ≠ v := fun hc => hw (hc ▸ List.mem_cons_self v rest)
          have hwrest : w ∉ rest := fun hc => hw (List.mem_cons_of_mem v hc)
          rw [hout w hwrest, hother w hwv]

/-- C8: mapping a segment with the direct (`Identical`) policy installs, for every
VPN of its range, a leaf entry whose PPN numerically equals the VPN, allocates
no frame (the kernel state and the segment's frame map are unchanged), and a
`translate` of such a VPN returns that valid entry. -/
theorem identical_map_ppn_eq_vpn (a a' : MapArea) (pt pt' : PageTable) (k k' : Kernel)
    (ht : a.map_type = MapType.Identical)
    (h : a.map pt k = some (a', pt', k')) :
    a' = a ∧ k' = k ∧
      ∀ vpn, a.vpn_range.mem vpn →
        pt'.translate vpn = some ⟨vpn, a.map_perm ||| PTEFlags.V⟩ := by
  obtain ⟨ha, hk, hin, _⟩ := mapLoop_identical ht h
  exact ⟨ha, hk, fun vpn hv => hin vpn (mem_range_list.mpr hv)⟩

theorem identical_map_ppn_eq_vpn_witness :
    (MapArea.new 0 4096 MapType.Identical 6).map_type = MapType.Identical ∧
    (⟨[(0, ⟨0, 7⟩)]⟩ : PageTable).translate 0 = some ⟨0, 7⟩ :=
  ⟨rfl,
    (identical_map_ppn_eq_vpn (MapArea.new 0 4096 MapType.Identical 6)
      (MapArea.new 0 4096 MapType.Identical 6) PageTable.new ⟨[(0, ⟨0, 7⟩)]⟩ k0 k0
      rfl rfl).2.2 0 (by decide)⟩

theorem range_list_nodup (r : VPNRange) : r.list.Nodup := by
  unfold VPNRange.list
  exact (List.nodup_range _).map (fun i j h => by omega)

theorem map_one_fields {a a1 : MapArea} {pt pt1 : PageTable} {k k1 : Kernel} {v : Nat}
    (h : a.map_one pt k v = some (a1, pt1, k1)) :
    a1.vpn_range = a.vpn_range ∧ a1.map_type = a.map_type ∧ a1.map_perm = a.map_perm ∧
      ∃ ppn, pt.map v ppn a.map_perm = some pt1 := by
  unfold MapArea.map_one at h
  cases ht : a.map_type with
  | Identical =>
    rw [ht] at h
    cases hpm : pt.map v v a.map_perm with
    | none => rw [hpm] at h; cases h
    | some ptm =>
      rw [hpm] at h
      injection h with hval
      injection hval with h1 h23
      injection h23 with h2 h3
      subst h1; subst h2; subst h3
      exact ⟨rfl, ht.symm ▸ rfl, rfl, v, hpm⟩
  | Framed =>
    rw [ht] at h
    cases hal : k.allocFrame with
    | none => rw [hal] at h; cases h
    | some r =>
      obtain ⟨ppn, kal⟩ := r
      rw [hal] at h
      dsimp only at h
      cases hpm : pt.map v ppn a.map_perm with
      | none => rw [hpm] at h; cases h
      | some ptm =>
        rw [hpm] at h
        injection h with hval
        injection hval with h1 h23
        injection h23 with h2 h3
        subst h1; subst h2; subst h3
        exact ⟨rfl, rfl, rfl, ppn, hpm⟩

theorem mapLoop_general {L : List Nat} {a a' : MapArea} {pt pt' : PageTable}
    {k k' : Kernel} (h : a.mapLoop pt k L = some (a', pt', k')) :
    a'.vpn_range = a.vpn_range ∧ a'.map_type = a.map_type ∧ a'.map_perm = a.map_perm ∧
      (∀ w, (pt.translate w).isSome → pt'.translate w = pt.translate w) ∧
      (∀ v ∈ L, pt.translate v = none) ∧
      (∀ v ∈ L, ∃ p, pt'.translate v = some ⟨p, a.map_perm ||| PTEFlags.V⟩) := by
  induction L generalizing a pt k with
  | nil =>
    unfold MapArea.mapLoop at h
    injection h with hval
    injection hval with h1 h23
    injection h23 with h2 h3
    subst h1; subst h2; subst h3
    exact ⟨rfl, rfl, rfl, fun w _ => rfl, by simp, by simp⟩
  | cons v rest ih =>
    unfold MapArea.mapLoop at h
    cases hm : a.map_one pt k v with
    | none => rw [hm] at h; cases h
    | some r =>
      obtain ⟨a1, pt1, k1⟩ := r
      rw [hm] at h
      obtain ⟨hr1, hr2, hr3, ppn, hpm⟩ := map_one_fields hm
      obtain ⟨hfree, hself, hother⟩ := translate_map_some hpm
      obtain ⟨ih1, ih2, ih3, ihpres, ihnone, ihsome⟩ := ih h
      have hpres1 : ∀ w, (pt.translate w).isSome → pt1.translate w = pt.translate w := by
        intro w hw
        have hwv : w ≠ v := by
          intro hc; subst hc; rw [hfree] at hw; cases hw
        exact hother w hwv
      refine ⟨hr1 ▸ ih1, hr2 ▸ ih2, hr3 ▸ ih3, ?_, ?_, ?_⟩
      · intro w hw
        have h1w := hpres1 w hw
        have : (pt1.translate w).isSome := by rw [h1w]; exact hw
        rw [ihpres w this, h1w]
      · intro u hu
        rcases List.mem_cons.mp hu with rfl | hurest
        · exact hfree
        · have := ihnone u hurest
          by_cases huv : u = v
          · subst huv; exact hfree
          · rw [← hother u huv]; exact this
      · intro u hu
        rcases List.mem_cons.mp hu with rfl | hurest
        · refine ⟨ppn, ?_⟩
          have : (pt1.translate u).isSome := by rw [hself]; rfl
          rw [ihpres u this, hself]
        · obtain ⟨p, hp⟩ := ihsome u hurest
          exact ⟨p, by rw [hp, hr3]⟩

theorem push_general {ms ms' : MemorySet} {k k' : Kernel} {area : MapArea}
    {data : Option Bytes} (h : ms.push k area data = some (ms', k')) :
    ∃ a', ms'.areas = ms.areas ++ [a'] ∧ a'.vpn_range = area.vpn_range ∧
      a'.map_type = area.map_type ∧ a'.map_perm = area.map_perm ∧
      (∀ w, (ms.page_table.translate w).isSome →
        ms'.page_table.translate w = ms.page_table.translate w) ∧
      (∀ v, area.vpn_range.mem v → ms.page_table.translate v = none) ∧
      (∀ v, area.vpn_range.mem v →
        ∃ p, ms'.page_table.translate v = some ⟨p, area.map_perm ||| PTEFlags.V⟩) := by
  unfold MemorySet.push at h
  cases hmap : area.map ms.page_table k with
  | none => rw [hmap] at h; cases h
  | some r =>
    obtain ⟨a1, pt1, k1⟩ := r
    rw [hmap] at h
    dsimp only at h
    obtain ⟨h1, h2, h3, hpres, hnone, hsome⟩ := mapLoop_general hmap
    have hmem : ∀ v, area.vpn_range.mem v → v ∈ area.vpn_range.list :=
      fun v hv => mem_range_list.mpr hv
    cases data with
    | none =>
      dsimp only at h
      injection h with hval
      injection hval with hms hk
      subst hms; subst hk
      exact ⟨a1, rfl, h1, h2, h3, hpres, fun v hv => hnone v (hmem v hv),
        fun v hv => hsome v (hmem v hv)⟩
    | some d =>
      dsimp only at h
      cases hcd : a1.copy_data pt1 k1.mem d with
      | none => rw [hcd] at h; cases h
      | some mem2 =>
        rw [hcd] at h
        injection h with hval
        injection hval with hms hk
        subst hms; subst hk
        exact ⟨a1, rfl, h1, h2, h3, hpres, fun v hv => hnone v (hmem v hv),
          fun v hv => hsome v (hmem v hv)⟩

theorem unmap_one_fields {a a1 : MapArea} {pt pt1 : PageTable} {k k1 : Kernel} {v : Nat}
    (h : a.unmap_one pt k v = some (a1, pt1, k1)) :
    a1.vpn_range = a.vpn_range ∧ a1.map_type = a.map_type ∧ a1.map_perm = a.map_perm ∧
      pt.unmap v = some pt1 ∧ k1.mem = k.mem ∧ k1.fa.current = k.fa.current ∧
      k1.fa.end_ = k.fa.end_ := by
  unfold MapArea.unmap_one at h
  cases hu : pt.unmap v with
  | none => rw [hu] at h; cases h
  | some ptu =>
    rw [hu] at h
    dsimp only at h
    injection h with hval
    injection hval with h1 h23
    injection h23 with h2 h3
    subst h1; subst h2; subst h3
    refine ⟨?_, ?_, ?_, rfl, ?_, ?_, ?_⟩ <;>
      (cases htp : a.map_type with
       | Identical => simp [htp]
       | Framed =>
         cases hf : a.data_frames.find? (fun e => e.1 = v) with
         | none => simp [htp, hf]
         | some pr =>
           obtain ⟨w, ppn⟩ := pr
           simp [htp, hf, Kernel.deallocFrame, FrameAllocator.dealloc])

theorem unmapLoop_facts {L : List Nat} {a a' : MapArea} {pt pt' : PageTable}
    {k k' : Kernel} (h : a.unmapLoop pt k L = some (a', pt', k')) :
    a'.vpn_range = a.vpn_range ∧ a'.map_type = a.map_type ∧ a'.map_perm = a.map_perm ∧
      (∀ w, w ∉ L → pt'.translate w = pt.translate w) ∧
      (∀ v ∈ L, pt'.translate v = none) ∧
      (∀ v ∈ L, (pt.translate v).isSome) ∧
      k'.mem = k.mem ∧ k'.fa.current = k.fa.current ∧ k'.fa.end_ = k.fa.end_ := by
  induction L generalizing a pt k with
  | nil =>
    unfold MapArea.unmapLoop at h
    injection h with hval
    injection hval with h1 h23
    injection h23 with h2 h3
    subst h1; subst h2; subst h3
    exact ⟨rfl, rfl, rfl, fun w _ => rfl, by simp, by simp, rfl, rfl, rfl⟩
  | cons v rest ih =>
    unfold MapArea.unmapLoop at h
    cases hm : a.unmap_one pt k v with
    | none => rw [hm] at h; cases h
    | some r =>
      obtain ⟨a1, pt1, k1⟩ := r
      rw [hm] at h
      obtain ⟨hf1, hf2, hf3, hptu, hk1m, hk1c, hk1e⟩ := unmap_one_fields hm
      obtain ⟨hwas, hvnone, hother⟩ := translate_unmap_some hptu
      obtain ⟨ih1, ih2, ih3, ihpres, ihnone, ihsome, ihm, ihc, ihe⟩ := ih h
      have hvrest : v ∉ rest := by
        intro hc
        have := ihsome v hc
        rw [hvnone] at this
        cases this
      refine ⟨hf1 ▸ ih1, hf2 ▸ ih2, hf3 ▸ ih3, ?_, ?_, ?_, ihm.trans hk1m,
        ihc.trans hk1c, ihe.trans hk1e⟩
      · intro w hw
        have hwv : w ≠ v := fun hc => hw (hc ▸ List.mem_cons_self v rest)
        have hwrest : w ∉ rest := fun hc => hw (List.mem_cons_of_mem v hc)
        rw [ihpres w hwrest, hother w hwv]
      · intro u hu
        rcases List.mem_cons.mp hu with rfl | hurest
        · rw [ihpres u hvrest, hvnone]
        · exact ihnone u hurest
      · intro u hu
        rcases List.mem_cons.mp hu with rfl | hurest
        · exact hwas
        · have := ihsome u hurest
          have huv : u ≠ v := fun hc => hvrest (hc ▸ hurest)
          rw [hother u huv] at this
          exact this

theorem unmapLoop_total {L : List Nat} (a : MapArea) (pt : PageTable) (k : Kernel)
    (hnd : L.Nodup) (hm : ∀ v ∈ L, (pt.translate v).isSome) :
    (a.unmapLoop pt k L).isSome := by
  induction L generalizing a pt k with
  | nil => simp [MapArea.unmapLoop]
  | cons v rest ih =>
    have hv := hm v (List.mem_cons_self v rest)
    have hun : ∃ ptu, pt.unmap v = some ptu := by
      unfold PageTable.unmap
      cases htv : pt.translate v with
      | none => rw [htv] at hv; cases hv
      | some e => exact ⟨_, rfl⟩
    obtain ⟨ptu, hptu⟩ := hun
    have hone : ∃ a1 k1, a.unmap_one pt k v = some (a1, ptu, k1) := by
      unfold MapArea.unmap_one
      rw [hptu]
      exact ⟨_, _, rfl⟩
    obtain ⟨a1, k1, hone⟩ := hone
    unfold MapArea.unmapLoop
    rw [hone]
    obtain ⟨_, hvnone, hother⟩ := translate_unmap_some hptu
    apply ih a1 ptu k1 hnd.of_cons
    intro u hu
    have huv : u ≠ v := fun hc => (List.nodup_cons.mp hnd).1 (hc ▸ hu)
    rw [hother u huv]
    exact hm u (List.mem_cons_of_mem v hu)

theorem munmapLoop_first_match {l1 : List MapArea} {a a2 : MapArea} {l2 : List MapArea}
    {pt pt2 : PageTable} {k k2 : Kernel} {sv ev : Nat}
    (hno : ∀ b ∈ l1, ¬(b.vpn_range.get_start = sv ∧ b.vpn_range.get_end ≤ ev))
    (hq : a.vpn_range.get_start = sv ∧ a.vpn_range.get_end ≤ ev)
    (hun : a.unmap pt k = some (a2, pt2, k2)) :
    munmapLoop pt k sv ev (l1 ++ a :: l2) = some (l1 ++ a2 :: l2, pt2, k2) := by
  induction l1 with
  | nil =>
    simp only [List.nil_append]
    unfold munmapLoop
    rw [if_pos hq, hun]
  | cons b l1' ih =>
    simp only [List.cons_append]
    unfold munmapLoop
    rw [if_neg (hno b (List.mem_cons_self b l1'))]
    rw [ih (fun c hc => hno c (List.mem_cons_of_mem b hc))]

/-- C2 (amended): for page-aligned `start` and `len` with the requested range
mapped, `munmap` returns `0` and unmaps — clearing its PTEs and releasing its
frames — the first segment in list order whose VPN range starts exactly at
`start / PAGE_SIZE` and ends at or before `(start + len) / PAGE_SIZE`; segments
before and after it are untouched and none is split; the matched segment's
record, however, stays in the segment list (it is not removed). -/
theorem munmap_success_unmaps_first_matching_segment
    (ms : MemorySet) (k : Kernel) (start len : Nat) (l1 : List MapArea) (a : MapArea)
    (l2 : List MapArea)
    (h1 : start % PAGE_SIZE = 0) (h2 : len % PAGE_SIZE = 0)
    (h3 : vpn_range_is_used ms.page_table start len = true)
    (hsplit : ms.areas = l1 ++ a :: l2)
    (hfirst : ∀ b ∈ l1, ¬(b.vpn_range.get_start = start / PAGE_SIZE ∧
      b.vpn_range.get_end ≤ (len + start) % USIZE / PAGE_SIZE))
    (hq : a.vpn_range.get_start = start / PAGE_SIZE ∧
      a.vpn_range.get_end ≤ (len + start) % USIZE / PAGE_SIZE) :
    ∃ a2 pt2 k2, ms.munmap k start len = some (0, ⟨pt2, l1 ++ a2 :: l2⟩, k2) ∧
      a2.vpn_range = a.vpn_range ∧ a2.map_type = a.map_type ∧ a2.map_perm = a.map_perm ∧
      (∀ v, a.vpn_range.mem v → pt2.translate v = none) ∧
      (∀ w, ¬ a.vpn_range.mem w → pt2.translate w = ms.page_table.translate w) ∧
      k2.mem = k.mem ∧ k2.fa.current = k.fa.current ∧ k2.fa.end_ = k.fa.end_ := by
  have hall : ∀ x ∈ List.range ((start + len) % USIZE / PAGE_SIZE - start / PAGE_SIZE),
      (ms.page_table.translate (start / PAGE_SIZE + x)).isSome = true := by
    have h3' := h3
    unfold vpn_range_is_used at h3'
    rw [List.all_eq_true] at h3'
    exact h3'
  obtain ⟨hq1, hq2⟩ := hq
  unfold VPNRange.get_start at hq1
  unfold VPNRange.get_end at hq2
  have hmapped : ∀ v ∈ a.vpn_range.list, (ms.page_table.translate v).isSome := by
    intro v hv
    obtain ⟨hl, hvr⟩ := mem_range_list.mp hv
    have hvlt : v < (start + len) % USIZE / PAGE_SIZE := by
      have : v < (len + start) % USIZE / PAGE_SIZE := lt_of_lt_of_le hvr hq2
      rwa [Nat.add_comm len start] at this
    have hj : v - start / PAGE_SIZE < (start + len) % USIZE / PAGE_SIZE - start / PAGE_SIZE := by
      omega
    have := hall (v - start / PAGE_SIZE) (List.mem_range.mpr hj)
    have hveq : start / PAGE_SIZE + (v - start / PAGE_SIZE) = v := by omega
    rwa [hveq] at this
  have htotal := unmapLoop_total a ms.page_table k (range_list_nodup _) hmapped
  have htotal' : (a.unmap ms.page_table k).isSome := htotal
  obtain ⟨r, hr⟩ := Option.isSome_iff_exists.mp htotal'
  obtain ⟨a2, pt2, k2⟩ := r
  have hrl : a.unmapLoop ms.page_table k a.vpn_range.list = some (a2, pt2, k2) := hr
  obtain ⟨hg1, hg2, hg3, hpres, hnone, _, hkm, hkc, hke⟩ := unmapLoop_facts hrl
  have hml := @munmapLoop_first_match l1 a a2 l2 ms.page_table pt2 k k2
    (start / PAGE_SIZE) ((len + start) % USIZE / PAGE_SIZE) hfirst ⟨hq1, hq2⟩ hr
  refine ⟨a2, pt2, k2, ?_, hg1, hg2, hg3, ?_, ?_, hkm, hkc, hke⟩
  · unfold MemorySet.munmap
    rw [if_neg (by simp [h1, h2, h3])]
    rw [hsplit, hml]
  · intro v hv
    exact hnone v (mem_range_list.mpr hv)
  · intro w hw
    exact hpres w (fun hc => hw (mem_range_list.mp hc))

theorem munmap_success_unmaps_first_matching_segment_witness :
    ∃ a2 pt2 k2,
      (⟨⟨[(0, ⟨0, 19⟩)]⟩, [⟨⟨0, 1⟩, [(0, 0)], MapType.Framed, 18⟩]⟩ : MemorySet).munmap
          ⟨⟨1, 64, []⟩, memZero⟩ 0 4096 =
        some (0, ⟨pt2, [] ++ a2 :: []⟩, k2) ∧
      a2.vpn_range = (⟨⟨0, 1⟩, [(0, 0)], MapType.Framed, 18⟩ : MapArea).vpn_range ∧
      a2.map_type = MapType.Framed ∧ a2.map_perm = 18 ∧
      (∀ v, (⟨0, 1⟩ : VPNRange).mem v → pt2.translate v = none) ∧
      (∀ w, ¬ (⟨0, 1⟩ : VPNRange).mem w →
        pt2.translate w = (⟨[(0, ⟨0, 19⟩)]⟩ : PageTable).translate w) ∧
      k2.mem = memZero ∧ k2.fa.current = 1 ∧ k2.fa.end_ = 64 :=
  munmap_success_unmaps_first_matching_segment
    ⟨⟨[(0, ⟨0, 19⟩)]⟩, [⟨⟨0, 1⟩, [(0, 0)], MapType.Framed, 18⟩]⟩ ⟨⟨1, 64, []⟩, memZero⟩
    0 4096 [] ⟨⟨0, 1⟩, [(0, 0)], MapType.Framed, 18⟩ []
    (by decide) (by decide) (by decide) rfl (by simp) (by decide)

/-- C2 counterexample: after a successful `munmap` of the only segment, the
segment's record is still in the segment list (the list still has length 1 and
still holds the segment's VPN range), contradicting the claim that `munmap`
removes the matched segment from the address space's segment list. -/
theorem munmap_leaves_record_in_list_cex :
    ((⟨⟨[(0, ⟨0, 19⟩)]⟩, [⟨⟨0, 1⟩, [(0, 0)], MapType.Framed, 18⟩]⟩ : MemorySet).munmap
        ⟨⟨1, 64, []⟩, memZero⟩ 0 4096).map
      (fun r => (r.1, r.2.1.areas.length, r.2.1.areas.map MapArea.vpn_range)) =
      some (0, 1, [⟨0, 1⟩]) := by decide

/-- C5: `push` is the single mutation point for adding a segment: on success the
segment list is extended by exactly the pushed segment, whose every page is
already mapped in the resulting page table (mapping happens before recording,
and was impossible if any page was already taken); `insert_framed_area` is
definitionally this `push` of a fresh frame-backed segment with no data. -/
theorem push_maps_then_records (ms ms' : MemorySet) (k k' : Kernel)
    (area : MapArea) (data : Option Bytes)
    (h : ms.push k area data = some (ms', k')) :
    (∃ a', ms'.areas = ms.areas ++ [a'] ∧ a'.vpn_range = area.vpn_range ∧
      a'.map_type = area.map_type ∧ a'.map_perm = area.map_perm ∧
      (∀ v, area.vpn_range.mem v → ms.page_table.translate v = none) ∧
      (∀ v, area.vpn_range.mem v → (ms'.page_table.translate v).isSome)) ∧
    (∀ (s e p : Nat) (k2 : Kernel) (ms2 : MemorySet),
      ms2.insert_framed_area k2 s e p =
        ms2.push k2 (MapArea.new s e MapType.Framed p) none) := by
  obtain ⟨a', hareas, hr, ht, hp, _, hnone, hsome⟩ := push_general h
  refine ⟨⟨a', hareas, hr, ht, hp, hnone, ?_⟩, fun s e p k2 ms2 => rfl⟩
  intro v hv
  obtain ⟨q, hq⟩ := hsome v hv
  rw [hq]
  rfl

theorem push_maps_then_records_witness :
    (∃ a', (⟨⟨[(0, ⟨0, 19⟩)]⟩, [⟨⟨0, 1⟩, [(0, 0)], MapType.Framed, 18⟩]⟩ : MemorySet).areas =
        MemorySet.new_bare.areas ++ [a'] ∧
      a'.vpn_range = (MapArea.new 0 4096 MapType.Framed 18).vpn_range ∧
      a'.map_type = (MapArea.new 0 4096 MapType.Framed 18).map_type ∧
      a'.map_perm = (MapArea.new 0 4096 MapType.Framed 18).map_perm ∧
      (∀ v, (MapArea.new 0 4096 MapType.Framed 18).vpn_range.mem v →
        MemorySet.new_bare.page_table.translate v = none) ∧
      (∀ v, (MapArea.new 0 4096 MapType.Framed 18).vpn_range.mem v →
        ((⟨⟨[(0, ⟨0, 19⟩)]⟩, [⟨⟨0, 1⟩, [(0, 0)], MapType.Framed, 18⟩]⟩ :
          MemorySet).page_table.translate v).isSome)) ∧
    (∀ (s e p : Nat) (k2 : Kernel) (ms2 : MemorySet),
      ms2.insert_framed_area k2 s e p =
        ms2.push k2 (MapArea.new s e MapType.Framed p) none) :=
  push_maps_then_records MemorySet.new_bare
    ⟨⟨[(0, ⟨0, 19⟩)]⟩, [⟨⟨0, 1⟩, [(0, 0)], MapType.Framed, 18⟩]⟩ k0
    ⟨⟨1, 64, []⟩, zeroPage memZero 0⟩ (MapArea.new 0 4096 MapType.Framed 18) none rfl

theorem alloc_of_pos {fa : FrameAllocator} (h : 0 < fa.availableCount) :
    ∃ p fa', fa.alloc = some (p, fa') ∧ fa'.availableCount = fa.availableCount - 1 ∧
      fa'.end_ = fa.end_ ∧ fa.current ≤ fa'.current := by
  unfold FrameAllocator.alloc
  cases hr : fa.recycled with
  | cons p rest =>
    refine ⟨p, _, rfl, ?_, rfl, le_refl _⟩
    unfold FrameAllocator.availableCount
    rw [hr]
    simp
  | nil =>
    have hlt : fa.current < fa.end_ := by
      unfold FrameAllocator.availableCount at h
      rw [hr] at h
      simp at h
      omega
    rw [if_pos hlt]
    refine ⟨fa.current, _, rfl, ?_, rfl, Nat.le_succ _⟩
    show ([] : List Nat).length + (fa.end_ - (fa.current + 1)) =
      fa.recycled.length + (fa.end_ - fa.current) - 1
    rw [hr]
    simp only [List.length_nil]
    omega

theorem mapLoop_framed_total {L : List Nat} (a : MapArea) (pt : PageTable) (k : Kernel)
    (ht : a.map_type = MapType.Framed) (hnd : L.Nodup)
    (hfree : L.length ≤ k.fa.availableCount)
    (hunused : ∀ v ∈ L, pt.translate v = none) :
    (a.mapLoop pt k L).isSome := by
  induction L generalizing a pt k with
  | nil => simp [MapArea.mapLoop]
  | cons v rest ih =>
    have hpos : 0 < k.fa.availableCount := by
      have := hfree
      simp only [List.length_cons] at this
      omega
    obtain ⟨p, fa', hal, hcount, hend, hcur⟩ := alloc_of_pos hpos
    have hkal : k.allocFrame = some (p, ⟨fa', zeroPage k.mem p⟩) := by
      unfold Kernel.allocFrame
      rw [hal]
    have hvnone := hunused v (List.mem_cons_self v rest)
    have hmapx : ∃ pt1, pt.map v p a.map_perm = some pt1 := by
      unfold PageTable.map
      rw [hvnone]
      exact ⟨_, rfl⟩
    obtain ⟨pt1, hpt1⟩ := hmapx
    have hone : a.map_one pt k v =
        some (⟨a.vpn_range, a.data_frames ++ [(v, p)], a.map_type, a.map_perm⟩, pt1,
          ⟨fa', zeroPage k.mem p⟩) := by
      unfold MapArea.map_one
      rw [ht, hkal]
      dsimp only
      rw [hpt1]
    unfold MapArea.mapLoop
    rw [hone]
    dsimp only
    apply ih ⟨a.vpn_range, a.data_frames ++ [(v, p)], a.map_type, a.map_perm⟩ pt1
      ⟨fa', zeroPage k.mem p⟩ ht hnd.of_cons
    · have := hfree
      simp only [List.length_cons] at this
      rw [hcount]
      omega
    · intro u hu
      have huv : u ≠ v := fun hc => (List.nodup_cons.mp hnd).1 (hc ▸ hu)
      rw [(translate_map_some hpt1).2.2 u huv]
      exact hunused u (List.mem_cons_of_mem v hu)

theorem usize_val : USIZE = 18446744073709551616 := by norm_num [USIZE]

theorem mmapLenN_eq_ceil {len : Nat} (h1 : 0 < len) (h2 : len ≤ USIZE - PAGE_SIZE) :
    mmapLenN len = (len + PAGE_SIZE - 1) / PAGE_SIZE := by
  unfold mmapLenN
  rw [usize_val] at h2 ⊢
  unfold PAGE_SIZE at h2 ⊢
  omega

theorem portPerm_bits (port : Nat) :
    portPerm port &&& MapPermission.U ≠ 0 ∧
      ((portPerm port &&& MapPermission.R ≠ 0) ↔ port &&& 1 ≠ 0) ∧
      ((portPerm port &&& MapPermission.W ≠ 0) ↔ port &&& 2 ≠ 0) ∧
      ((portPerm port &&& MapPermission.X ≠ 0) ↔ port &&& 4 ≠ 0) := by
  unfold portPerm
  rcases h1 : (port &&& 1 != 0) <;> rcases h2 : (port &&& 2 != 0) <;>
    rcases h4 : (port &&& 4 != 0) <;>
    simp_all [MapPermission.U, MapPermission.R, MapPermission.W, MapPermission.X] <;>
    decide

theorem range_list_length (r : VPNRange) : r.list.length = r.r - r.l := by
  simp [VPNRange.list]

theorem mmap_area_range {start len pm : Nat} (h1 : start % PAGE_SIZE = 0)
    (hlen : 0 < len) (hbound : start + len ≤ USIZE - PAGE_SIZE) :
    (MapArea.new (vpnToVa (start / PAGE_SIZE))
        (vpnToVa ((len + PAGE_SIZE - 1) / PAGE_SIZE + start / PAGE_SIZE))
        MapType.Framed pm).vpn_range =
      ⟨start / PAGE_SIZE, (len + PAGE_SIZE - 1) / PAGE_SIZE + start / PAGE_SIZE⟩ := by
  simp only [MapArea.new, vaFloor, vaCeil, vpnToVa, VPNRange.mk.injEq, usize_val, PAGE_SIZE]
  rw [usize_val, show PAGE_SIZE = 4096 from rfl] at hbound
  constructor
  · omega
  · omega

/-- C3 (amended): for page-aligned `start`, a `port` with at least one of the low
three bits set and no other bit, `0 < len` with `start + len` at most
`2 ^ 64 - PAGE_SIZE` (so the page-count computation does not wrap), at least
`⌈len / PAGE_SIZE⌉` free frames and no target page mapped, `mmap` returns `0`
and appends exactly one frame-backed segment covering exactly the pages
`[start / PAGE_SIZE, start / PAGE_SIZE + ⌈len / PAGE_SIZE⌉)`, whose permission
set always contains User and contains Read/Write/Execute iff `port` bit 0/1/2,
and a translate of every covered page yields a valid PTE with those bits. -/
theorem mmap_success_inserts_user_segment
    (ms : MemorySet) (k : Kernel) (start len port : Nat)
    (h1 : start % PAGE_SIZE = 0)
    (hp1 : port &&& 7 ≠ 0) (hp2 : port &&& (USIZE - 8) = 0)
    (hlen : 0 < len)
    (hbound : start + len ≤ USIZE - PAGE_SIZE)
    (hfree : (len + PAGE_SIZE - 1) / PAGE_SIZE ≤ k.fa.availableCount)
    (hunused : ∀ j, j < (len + PAGE_SIZE - 1) / PAGE_SIZE →
      ms.page_table.translate (start / PAGE_SIZE + j) = none) :
    ∃ ms' k' a', ms.mmap k start len port = some (0, ms', k') ∧
      ms'.areas = ms.areas ++ [a'] ∧
      a'.vpn_range = ⟨start / PAGE_SIZE,
        (len + PAGE_SIZE - 1) / PAGE_SIZE + start / PAGE_SIZE⟩ ∧
      a'.map_type = MapType.Framed ∧ a'.map_perm = portPerm port ∧
      portPerm port &&& MapPermission.U ≠ 0 ∧
      ((portPerm port &&& MapPermission.R ≠ 0) ↔ port &&& 1 ≠ 0) ∧
      ((portPerm port &&& MapPermission.W ≠ 0) ↔ port &&& 2 ≠ 0) ∧
      ((portPerm port &&& MapPermission.X ≠ 0) ↔ port &&& 4 ≠ 0) ∧
      (∀ j, j < (len + PAGE_SIZE - 1) / PAGE_SIZE →
        ∃ p, ms'.page_table.translate (start / PAGE_SIZE + j) =
          some ⟨p, portPerm port ||| PTEFlags.V⟩) := by
  have hlenn : mmapLenN len = (len + PAGE_SIZE - 1) / PAGE_SIZE := by
    apply mmapLenN_eq_ceil hlen
    rw [usize_val] at hbound ⊢
    have : PAGE_SIZE = 4096 := rfl
    omega
  have hpoff : pageOffset start = 0 := h1
  have hunusedb : vpn_range_is_unused ms.page_table (start / PAGE_SIZE) (mmapLenN len)
      = true := by
    rw [hlenn]
    unfold vpn_range_is_unused
    rw [List.all_eq_true]
    intro j hj
    rw [List.mem_range] at hj
    rw [hunused j hj]
    rfl
  have hcond : ¬(pageOffset start ≠ 0 ∨ port &&& (USIZE - 8) ≠ 0 ∨ port &&& 7 = 0
      ∨ k.fa.availableCount < mmapLenN len
      ∨ vpn_range_is_unused ms.page_table (start / PAGE_SIZE) (mmapLenN len) = false) := by
    rintro (hc | hc | hc | hc | hc)
    · exact hc hpoff
    · exact hc hp2
    · exact hp1 hc
    · rw [hlenn] at hc; omega
    · rw [hunusedb] at hc; cases hc
  simp only [MemorySet.mmap]
  rw [if_neg hcond, if_neg (by omega : ¬ len = 0), hlenn]
  have harange := @mmap_area_range start len (portPerm port) h1 hlen hbound
  have hAt : (MapArea.new (vpnToVa (start / PAGE_SIZE))
      (vpnToVa ((len + PAGE_SIZE - 1) / PAGE_SIZE + start / PAGE_SIZE))
      MapType.Framed (portPerm port)).map_type = MapType.Framed := rfl
  have hlst_len : (MapArea.new (vpnToVa (start / PAGE_SIZE))
      (vpnToVa ((len + PAGE_SIZE - 1) / PAGE_SIZE + start / PAGE_SIZE))
      MapType.Framed (portPerm port)).vpn_range.list.length =
      (len + PAGE_SIZE - 1) / PAGE_SIZE := by
    rw [range_list_length, harange]
    dsimp only
    omega
  have hunused' : ∀ v ∈ (MapArea.new (vpnToVa (start / PAGE_SIZE))
      (vpnToVa ((len + PAGE_SIZE - 1) / PAGE_SIZE + start / PAGE_SIZE))
      MapType.Framed (portPerm port)).vpn_range.list,
      ms.page_table.translate v = none := by
    intro v hv
    have hm := mem_range_list.mp hv
    rw [harange] at hm
    have hm' : start / PAGE_SIZE ≤ v ∧
        v < (len + PAGE_SIZE - 1) / PAGE_SIZE + start / PAGE_SIZE := hm
    obtain ⟨hl, hr⟩ := hm'
    have hx := hunused (v - start / PAGE_SIZE) (by omega)
    have hveq : start / PAGE_SIZE + (v - start / PAGE_SIZE) = v := by omega
    rwa [hveq] at hx
  have htotal := mapLoop_framed_total _ ms.page_table k hAt (range_list_nodup _)
    (by rw [hlst_len]; exact hfree) hunused'
  obtain ⟨r, hmapEq⟩ := Option.isSome_iff_exists.mp htotal
  obtain ⟨a1, pt1, k1⟩ := r
  have hmapEq' : (MapArea.new (vpnToVa (start / PAGE_SIZE))
      (vpnToVa ((len + PAGE_SIZE - 1) / PAGE_SIZE + start / PAGE_SIZE))
      MapType.Framed (portPerm port)).map ms.page_table k = some (a1, pt1, k1) := hmapEq
  have hins : ms.insert_framed_area k (vpnToVa (start / PAGE_SIZE))
      (vpnToVa ((len + PAGE_SIZE - 1) / PAGE_SIZE + start / PAGE_SIZE))
      (portPerm port) = some (⟨pt1, ms.areas ++ [a1]⟩, k1) := by
    unfold MemorySet.insert_framed_area MemorySet.push
    rw [hmapEq']
  rw [hins]
  obtain ⟨g1, g2, g3, gpres, gnone, gsome⟩ := mapLoop_general hmapEq'
  obtain ⟨b0, b1, b2, b3⟩ := portPerm_bits port
  refine ⟨⟨pt1, ms.areas ++ [a1]⟩, k1, a1, rfl, rfl, ?_, ?_, ?_, b0, b1, b2, b3, ?_⟩
  · rw [g1, harange]
  · exact g2.trans hAt
  · exact g3
  · intro j hj
    have hv : (start / PAGE_SIZE + j) ∈ (MapArea.new (vpnToVa (start / PAGE_SIZE))
        (vpnToVa ((len + PAGE_SIZE - 1) / PAGE_SIZE + start / PAGE_SIZE))
        MapType.Framed (portPerm port)).vpn_range.list := by
      apply mem_range_list.mpr
      rw [harange]
      show start / PAGE_SIZE ≤ start / PAGE_SIZE + j ∧
        start / PAGE_SIZE + j < (len + PAGE_SIZE - 1) / PAGE_SIZE + start / PAGE_SIZE
      exact ⟨Nat.le_add_right _ _, by omega⟩
    obtain ⟨p, hp⟩ := gsome _ hv
    exact ⟨p, hp⟩

/-- C3 counterexample: at `len = 2 ^ 64 - 1` the page-count computation wraps to
`0`; with an aligned start, valid port bits, an empty page table and an
allocator holding `2 ^ 52` free frames (which is at least `⌈len / PAGE_SIZE⌉`),
`mmap` returns success yet maps no page at all: it appends one empty segment
and a translate of the first covered page still fails — contradicting the
claimed insertion of a segment covering `⌈len / PAGE_SIZE⌉` pages. -/
theorem mmap_wraparound_cex :
    ((MemorySet.new_bare.mmap kBig 0 (USIZE - 1) 1).map
      (fun r => (r.1, r.2.1.page_table.translate 0,
        r.2.1.areas.map (fun a => a.vpn_range))) =
      some (0, none, [⟨0, 0⟩])) ∧
    kBig.fa.availableCount = (USIZE - 1 + PAGE_SIZE - 1) / PAGE_SIZE ∧
    0 < (USIZE - 1 + PAGE_SIZE - 1) / PAGE_SIZE := by
  refine ⟨by decide, by decide, by decide⟩

theorem mmap_success_inserts_user_segment_witness :
    ∃ ms' k' a', MemorySet.new_bare.mmap k0 4096 4096 7 = some (0, ms', k') ∧
      ms'.areas = MemorySet.new_bare.areas ++ [a'] ∧
      a'.vpn_range = ⟨4096 / PAGE_SIZE,
        (4096 + PAGE_SIZE - 1) / PAGE_SIZE + 4096 / PAGE_SIZE⟩ ∧
      a'.map_type = MapType.Framed ∧ a'.map_perm = portPerm 7 ∧
      portPerm 7 &&& MapPermission.U ≠ 0 ∧
      ((portPerm 7 &&& MapPermission.R ≠ 0) ↔ (7 : Nat) &&& 1 ≠ 0) ∧
      ((portPerm 7 &&& MapPermission.W ≠ 0) ↔ (7 : Nat) &&& 2 ≠ 0) ∧
      ((portPerm 7 &&& MapPermission.X ≠ 0) ↔ (7 : Nat) &&& 4 ≠ 0) ∧
      (∀ j, j < (4096 + PAGE_SIZE - 1) / PAGE_SIZE →
        ∃ p, ms'.page_table.translate (4096 / PAGE_SIZE + j) =
          some ⟨p, portPerm 7 ||| PTEFlags.V⟩) :=
  mmap_success_inserts_user_segment MemorySet.new_bare k0 4096 4096 7
    (by decide) (by decide) (by decide) (by decide) (by decide) (by decide)
    (fun j hj => rfl)

theorem map_trampoline_spec {ms ms' : MemorySet} {sPA : Nat}
    (h : ms.map_trampoline sPA = some ms') :
    ms'.areas = ms.areas ∧
      ms'.page_table.translate trampVPN =
        some ⟨sPA / PAGE_SIZE, (PTEFlags.R ||| PTEFlags.X) ||| PTEFlags.V⟩ ∧
      ∀ w, w ≠ trampVPN → ms'.page_table.translate w = ms.page_table.translate w := by
  unfold MemorySet.map_trampoline at h
  cases hpm : ms.page_table.map (vaFloor TRAMPOLINE) (vaFloor sPA)
      (PTEFlags.R ||| PTEFlags.X) with
  | none => rw [hpm] at h; cases h
  | some pt' =>
    rw [hpm] at h
    injection h with h
    subst h
    obtain ⟨_, hself, hother⟩ := translate_map_some hpm
    exact ⟨rfl, hself, hother⟩

theorem push_preserves_trampInv {ms ms' : MemorySet} {k k' : Kernel} {area : MapArea}
    {data : Option Bytes} {sPA : Nat} (hinv : trampInv sPA ms)
    (h : ms.push k area data = some (ms', k')) : trampInv sPA ms' := by
  obtain ⟨hpte, hareas⟩ := hinv
  obtain ⟨a', hlist, hr, _, _, hpres, hnone, _⟩ := push_general h
  constructor
  · rw [hpres trampVPN (by rw [hpte]; rfl), hpte]
  · intro a ha
    rw [hlist] at ha
    rcases List.mem_append.mp ha with hold | hnew
    · exact hareas a hold
    · have : a = a' := by simpa using hnew
      subst this
      rw [hr]
      intro hc
      rw [hnone trampVPN hc] at hpte
      cases hpte

theorem mmap_preserves_trampInv {ms : MemorySet} {k : Kernel} {start len port : Nat}
    {res : Int × MemorySet × Kernel} {sPA : Nat} (hinv : trampInv sPA ms)
    (h : ms.mmap k start len port = some res) : trampInv sPA res.2.1 := by
  simp only [MemorySet.mmap] at h
  by_cases hc1 : (pageOffset start ≠ 0 ∨ port &&& (USIZE - 8) ≠ 0 ∨ port &&& 7 = 0
      ∨ k.fa.availableCount < mmapLenN len
      ∨ vpn_range_is_unused ms.page_table (start / PAGE_SIZE) (mmapLenN len) = false)
  · rw [if_pos hc1] at h
    injection h with h
    rw [← h]
    exact hinv
  · rw [if_neg hc1] at h
    by_cases hc2 : len = 0
    · rw [if_pos hc2] at h
      injection h with h
      rw [← h]
      exact hinv
    · rw [if_neg hc2] at h
      cases hins : ms.insert_framed_area k (vpnToVa (start / PAGE_SIZE))
          (vpnToVa (mmapLenN len + start / PAGE_SIZE)) (portPerm port) with
      | none => rw [hins] at h; cases h
      | some r2 =>
        obtain ⟨ms2, k2⟩ := r2
        rw [hins] at h
        injection h with h
        rw [← h]
        exact push_preserves_trampInv hinv hins

theorem munmapLoop_ranges_and_outside {areas : List MapArea} {pt pt' : PageTable}
    {k k' : Kernel} {sv ev : Nat} {areas' : List MapArea}
    (h : munmapLoop pt k sv ev areas = some (areas', pt', k')) :
    areas'.map (fun a => a.vpn_range) = areas.map (fun a => a.vpn_range) ∧
      ∀ w, (∀ a ∈ areas, ¬ a.vpn_range.mem w) → pt'.translate w = pt.translate w := by
  induction areas generalizing pt k areas' with
  | nil =>
    unfold munmapLoop at h
    injection h with hval
    injection hval with h1 h23
    injection h23 with h2 h3
    subst h1; subst h2; subst h3
    exact ⟨rfl, fun w _ => rfl⟩
  | cons a rest ih =>
    unfold munmapLoop at h
    by_cases hq : (a.vpn_range.get_start = sv ∧ a.vpn_range.get_end ≤ ev)
    · rw [if_pos hq] at h
      cases hun : a.unmap pt k with
      | none => rw [hun] at h; cases h
      | some r =>
        obtain ⟨a2, pt2, k2⟩ := r
        rw [hun] at h
        injection h with hval
        injection hval with h1 h23
        injection h23 with h2 h3
        subst h1; subst h2; subst h3
        have hrl : a.unmapLoop pt k a.vpn_range.list = some (a2, pt2, k2) := hun
        obtain ⟨hg1, _, _, hpres, _, _, _, _, _⟩ := unmapLoop_facts hrl
        constructor
        · simp [hg1]
        · intro w hw
          apply hpres
          intro hc
          exact hw a (List.mem_cons_self a rest) (mem_range_list.mp hc)
    · rw [if_neg hq] at h
      cases hrec : munmapLoop pt k sv ev rest with
      | none => rw [hrec] at h; cases h
      | some r =>
        obtain ⟨rest', pt2, k2⟩ := r
        rw [hrec] at h
        injection h with hval
        injection hval with h1 h23
        injection h23 with h2 h3
        subst h1; subst h2; subst h3
        obtain ⟨ih1, ih2⟩ := ih hrec
        constructor
        · simp [ih1]
        · intro w hw
          exact ih2 w (fun b hb => hw b (List.mem_cons_of_mem a hb))

theorem munmap_preserves_trampInv {ms : MemorySet} {k : Kernel} {start len : Nat}
    {res : Int × MemorySet × Kernel} {sPA : Nat} (hinv : trampInv sPA ms)
    (h : ms.munmap k start len = some res) : trampInv sPA res.2.1 := by
  obtain ⟨hpte, hareas⟩ := hinv
  unfold MemorySet.munmap at h
  by_cases hc : (start % PAGE_SIZE ≠ 0 ∨ vpn_range_is_used ms.page_table start len = false
      ∨ len % PAGE_SIZE ≠ 0)
  · rw [if_pos hc] at h
    injection h with h
    rw [← h]
    exact ⟨hpte, hareas⟩
  · rw [if_neg hc] at h
    cases hml : munmapLoop ms.page_table k (start / PAGE_SIZE)
        ((len + start) % USIZE / PAGE_SIZE) ms.areas with
    | none => rw [hml] at h; cases h
    | some r =>
      obtain ⟨areas', pt2, k2⟩ := r
      rw [hml] at h
      injection h with h
      rw [← h]
      obtain ⟨hranges, houtside⟩ := munmapLoop_ranges_and_outside hml
      constructor
      · rw [houtside trampVPN (fun a ha => hareas a ha), hpte]
      · intro a ha
        have hmem : a.vpn_range ∈ areas'.map (fun b => b.vpn_range) :=
          List.mem_map_of_mem _ ha
        rw [hranges] at hmem
        obtain ⟨b, hb, hbeq⟩ := List.mem_map.mp hmem
        rw [← hbeq]
        exact hareas b hb

theorem elfLoop_preserves_trampInv {input : Bytes} {phs : List ProgHeader}
    {ms ms2 : MemorySet} {k k2 : Kernel} {me me2 : Nat} {sPA : Nat}
    (hinv : trampInv sPA ms)
    (h : elfLoop input phs ms k me = some (ms2, k2, me2)) : trampInv sPA ms2 := by
  induction phs generalizing ms k me with
  | nil =>
    unfold elfLoop at h
    injection h with hval
    injection hval with h1 h23
    injection h23 with h2 h3
    subst h1
    exact hinv
  | cons ph rest ih =>
    unfold elfLoop at h
    cases hpt : ph.ptype with
    | Other =>
      rw [hpt] at h
      exact ih hinv h
    | Load =>
      rw [hpt] at h
      dsimp only at h
      by_cases hb : ph.offset + ph.file_size ≤ input.size
      · rw [if_pos hb] at h
        cases hpush : ms.push k (phArea ph) (some (input.slice ph.offset ph.file_size)) with
        | none => rw [hpush] at h; cases h
        | some r =>
          obtain ⟨ms1, k1⟩ := r
          rw [hpush] at h
          exact ih (push_preserves_trampInv hinv hpush) h
      · rw [if_neg hb] at h; cases h

theorem new_bare_trampoline {sPA : Nat} {ms' : MemorySet}
    (h : MemorySet.new_bare.map_trampoline sPA = some ms') : trampInv sPA ms' := by
  obtain ⟨ha, hb, _⟩ := map_trampoline_spec h
  refine ⟨hb, ?_⟩
  rw [ha]
  intro a ha'
  cases ha'

theorem from_elf_trampInv {sPA : Nat} {elf : ElfFile} {k : Kernel}
    {r : MemorySet × Kernel × Nat × Nat}
    (h : MemorySet.from_elf sPA elf k = some r) : trampInv sPA r.1 := by
  unfold MemorySet.from_elf at h
  rw [Option.bind_eq_some] at h
  obtain ⟨ms1, hmt, h⟩ := h
  by_cases hmg : elf.magic = [0x7f, 0x45, 0x4c, 0x46]
  · rw [if_pos hmg] at h
    rw [Option.bind_eq_some] at h
    obtain ⟨r2, hel, h⟩ := h
    obtain ⟨ms2, k2, me2⟩ := r2
    dsimp only at h
    rw [Option.bind_eq_some] at h
    obtain ⟨r3, hp3, h⟩ := h
    rw [Option.bind_eq_some] at h
    obtain ⟨r4, hp4, h⟩ := h
    injection h with h
    have hinv1 := new_bare_trampoline hmt
    have hinv2 := elfLoop_preserves_trampInv hinv1 hel
    have hinv3 := push_preserves_trampInv hinv2 hp3
    have hinv4 := push_preserves_trampInv hinv3 hp4
    rw [← h]
    exact hinv4
  · rw [if_neg hmg] at h; cases h

theorem new_kernel_trampInv {L : KernelLayout} {k : Kernel} {r : MemorySet × Kernel}
    (h : MemorySet.new_kernel L k = some r) : trampInv L.strampoline r.1 := by
  unfold MemorySet.new_kernel at h
  rw [Option.bind_eq_some] at h
  obtain ⟨ms0, hmt, h⟩ := h
  rw [Option.bind_eq_some] at h
  obtain ⟨r1, hp1, h⟩ := h
  rw [Option.bind_eq_some] at h
  obtain ⟨r2, hp2, h⟩ := h
  rw [Option.bind_eq_some] at h
  obtain ⟨r3, hp3, h⟩ := h
  rw [Option.bind_eq_some] at h
  obtain ⟨r4, hp4, h⟩ := h
  rw [Option.bind_eq_some] at h
  obtain ⟨r5, hp5, h⟩ := h
  injection h with h
  have h0 := new_bare_trampoline hmt
  have h1 := push_preserves_trampInv h0 hp1
  have h2 := push_preserves_trampInv h1 hp2
  have h3 := push_preserves_trampInv h2 hp3
  have h4 := push_preserves_trampInv h3 hp4
  have h5 := push_preserves_trampInv h4 hp5
  rw [← h]
  exact h5

/-- C10: in every address space, the trampoline page is installed with exactly the
Readable and Executable permission flags (plus Valid) — in particular with the
User-accessible and Writable bits clear — and is never recorded in the segment
list; `mmap` and `munmap`, which only work through the segment list, preserve
both facts, so they can never remove or alter the trampoline mapping; the
invariant holds for every address space built by `from_elf` or `new_kernel`. -/
theorem trampoline_mapping_fixed (sPA : Nat) :
    (∀ (ms ms' : MemorySet), ms.map_trampoline sPA = some ms' →
      ms'.areas = ms.areas ∧
      ms'.page_table.translate trampVPN =
        some ⟨sPA / PAGE_SIZE, (PTEFlags.R ||| PTEFlags.X) ||| PTEFlags.V⟩ ∧
      ((PTEFlags.R ||| PTEFlags.X) ||| PTEFlags.V) &&& PTEFlags.U = 0 ∧
      ((PTEFlags.R ||| PTEFlags.X) ||| PTEFlags.V) &&& PTEFlags.W = 0 ∧
      ((PTEFlags.R ||| PTEFlags.X) ||| PTEFlags.V) &&& PTEFlags.R ≠ 0 ∧
      ((PTEFlags.R ||| PTEFlags.X) ||| PTEFlags.V) &&& PTEFlags.X ≠ 0) ∧
    (∀ (ms : MemorySet) (k : Kernel) (start len port : Nat)
      (res : Int × MemorySet × Kernel), trampInv sPA ms →
      ms.mmap k start len port = some res → trampInv sPA res.2.1) ∧
    (∀ (ms : MemorySet) (k : Kernel) (start len : Nat)
      (res : Int × MemorySet × Kernel), trampInv sPA ms →
      ms.munmap k start len = some res → trampInv sPA res.2.1) ∧
    (∀ (elf : ElfFile) (k : Kernel) (r : MemorySet × Kernel × Nat × Nat),
      MemorySet.from_elf sPA elf k = some r → trampInv sPA r.1) ∧
    (∀ (L : KernelLayout) (k : Kernel) (r : MemorySet × Kernel),
      L.strampoline = sPA → MemorySet.new_kernel L k = some r →
      trampInv sPA r.1) := by
  refine ⟨?_, ?_, ?_, ?_, ?_⟩
  · intro ms ms' h
    obtain ⟨h1, h2, _⟩ := map_trampoline_spec h
    exact ⟨h1, h2, by decide, by decide, by decide, by decide⟩
  · intro ms k start len port res hinv h
    exact mmap_preserves_trampInv hinv h
  · intro ms k start len res hinv h
    exact munmap_preserves_trampInv hinv h
  · intro elf k r h
    exact from_elf_trampInv h
  · intro L k r hL h
    rw [← hL]
    exact new_kernel_trampInv h

theorem trampoline_mapping_fixed_witness :
    trampInv 0
      (⟨⟨[(0, ⟨0, 19⟩), (trampVPN, ⟨0, 11⟩)]⟩,
        [⟨⟨0, 1⟩, [(0, 0)], MapType.Framed, 18⟩]⟩ : MemorySet) :=
  (trampoline_mapping_fixed 0).2.1
    ⟨⟨[(trampVPN, ⟨0, 11⟩)]⟩, []⟩ k0 0 4096 1
    (0, ⟨⟨[(0, ⟨0, 19⟩), (trampVPN, ⟨0, 11⟩)]⟩,
      [⟨⟨0, 1⟩, [(0, 0)], MapType.Framed, 18⟩]⟩,
      ⟨⟨1, 64, []⟩, zeroPage memZero 0⟩)
    (by decide) rfl

theorem elfLoop_maxEnd {input : Bytes} {phs : List ProgHeader} {ms : MemorySet}
    {k : Kernel} {me : Nat} {r : MemorySet × Kernel × Nat}
    (h : elfLoop input phs ms k me = some r) :
    r.2.2 = phs.foldl (fun acc ph => match ph.ptype with
      | PhType.Load => (phArea ph).vpn_range.get_end
      | PhType.Other => acc) me := by
  induction phs generalizing ms k me with
  | nil =>
    unfold elfLoop at h
    injection h with h
    rw [← h]
    rfl
  | cons ph rest ih =>
    unfold elfLoop at h
    cases hpt : ph.ptype with
    | Other =>
      rw [hpt] at h
      rw [List.foldl_cons, hpt]
      exact ih h
    | Load =>
      rw [hpt] at h
      dsimp only at h
      by_cases hb : ph.offset + ph.file_size ≤ input.size
      · rw [if_pos hb] at h
        cases hpush : ms.push k (phArea ph) (some (input.slice ph.offset ph.file_size)) with
        | none => rw [hpush] at h; cases h
        | some r1 =>
          obtain ⟨ms1, k1⟩ := r1
          rw [hpush] at h
          rw [List.foldl_cons, hpt]
          exact ih h
      · rw [if_neg hb] at h; cases h

theorem pow52_val : (2 : Nat) ^ 52 = 4503599627370496 := by norm_num

theorem stack_area_range {me pm : Nat} (hme : me < 2 ^ 52 - 3) :
    (MapArea.new ((vpnToVa me + PAGE_SIZE) % USIZE)
      (((vpnToVa me + PAGE_SIZE) % USIZE + USER_STACK_SIZE) % USIZE)
      MapType.Framed pm).vpn_range = ⟨me + 1, me + 3⟩ := by
  rw [pow52_val] at hme
  simp only [MapArea.new, vaFloor, vaCeil, vpnToVa, VPNRange.mk.injEq, usize_val,
    PAGE_SIZE, USER_STACK_SIZE]
  constructor
  · omega
  · omega

theorem stack_top_val {me : Nat} (hme : me < 2 ^ 52 - 3) :
    ((vpnToVa me + PAGE_SIZE) % USIZE + USER_STACK_SIZE) % USIZE =
      (me + 1) * PAGE_SIZE + USER_STACK_SIZE := by
  rw [pow52_val] at hme
  simp only [vpnToVa, usize_val, PAGE_SIZE, USER_STACK_SIZE]
  omega

/-- C9 (amended): for every accepted ELF image, the user stack is a frame-backed
segment with Read, Write and User permissions and size `USER_STACK_SIZE`, whose
bottom lies exactly one page (left unmapped by `from_elf` itself as a guard)
above the ending virtual page of the LAST loadable program header — which
equals the highest such page only when the headers are in ascending order —
and `from_elf` returns the top-of-stack address (that bottom plus
`USER_STACK_SIZE`) and the ELF entry point. -/
theorem from_elf_user_stack (sPA : Nat) (elf : ElfFile) (k : Kernel)
    (r : MemorySet × Kernel × Nat × Nat)
    (h : MemorySet.from_elf sPA elf k = some r)
    (hme : lastLoadEnd elf.phs < 2 ^ 52 - 3) :
    ∃ (rest : List MapArea) (stackA trapA : MapArea),
      r.1.areas = rest ++ [stackA, trapA] ∧
      stackA.vpn_range = ⟨lastLoadEnd elf.phs + 1, lastLoadEnd elf.phs + 3⟩ ∧
      stackA.map_type = MapType.Framed ∧
      stackA.map_perm = MapPermission.R ||| MapPermission.W ||| MapPermission.U ∧
      (∀ v, stackA.vpn_range.mem v → (r.1.page_table.translate v).isSome) ∧
      r.2.2.1 = (lastLoadEnd elf.phs + 1) * PAGE_SIZE + USER_STACK_SIZE ∧
      USER_STACK_SIZE = 2 * PAGE_SIZE ∧
      r.2.2.2 = elf.entry_point := by
  unfold MemorySet.from_elf at h
  rw [Option.bind_eq_some] at h
  obtain ⟨ms1, hmt, h⟩ := h
  by_cases hmg : elf.magic = [0x7f, 0x45, 0x4c, 0x46]
  · rw [if_pos hmg] at h
    rw [Option.bind_eq_some] at h
    obtain ⟨r2, hel, h⟩ := h
    dsimp only at h
    rw [Option.bind_eq_some] at h
    obtain ⟨r3, hp3, h⟩ := h
    rw [Option.bind_eq_some] at h
    obtain ⟨r4, hp4, h⟩ := h
    injection h with h
    have hme2 : r2.2.2 = lastLoadEnd elf.phs := elfLoop_maxEnd hel
    rw [hme2] at hp3 h
    obtain ⟨a3, hl3, hr3, ht3, hperm3, _, _, hsome3⟩ := push_general hp3
    obtain ⟨a4, hl4, _, _, _, hpres4, _, _⟩ := push_general hp4
    have hrange3 : a3.vpn_range = ⟨lastLoadEnd elf.phs + 1, lastLoadEnd elf.phs + 3⟩ := by
      rw [hr3, stack_area_range hme]
    refine ⟨r2.1.areas, a3, a4, ?_, hrange3, ?_, ?_, ?_, ?_, by decide, ?_⟩
    · rw [← h]
      dsimp only
      rw [hl4, hl3, List.append_assoc]
      rfl
    · rw [ht3]
      rfl
    · rw [hperm3]
      rfl
    · intro v hv
      rw [← h]
      dsimp only
      have hs3 : (r3.1.page_table.translate v).isSome := by
        obtain ⟨p, hp⟩ := hsome3 v (by rw [hr3] at hv; exact hv)
        rw [hp]
        rfl
      rw [hpres4 v hs3]
      exact hs3
    · rw [← h]
      dsimp only
      exact stack_top_val hme
    · rw [← h]
  · rw [if_neg hmg] at h; cases h

/-- C9 counterexample: for an ELF whose two loadable headers are in descending
order (ends at pages 10 then 4), `from_elf` places the user stack bottom at
page 5 — one page above the end of the LAST loadable header — not at page 11,
one page above the HIGHEST ending page (10) as the claim states. -/
theorem from_elf_stack_not_above_highest_cex :
    ((MemorySet.from_elf 0 elfDesc k0).map
      (fun r => (r.1.areas.map (fun a => a.vpn_range), r.2.2.1))) =
      some ([⟨8, 10⟩, ⟨2, 4⟩, ⟨5, 7⟩, ⟨TRAP_CONTEXT / PAGE_SIZE, trampVPN⟩],
        5 * 4096 + 8192) ∧
    (5 : Nat) ≠ 10 + 1 := by
  exact ⟨by decide, by decide⟩

theorem from_elf_user_stack_witness :
    ∃ (rest : List MapArea) (stackA trapA : MapArea),
      ((MemorySet.from_elf 0 elfOne k0).get (by decide)).1.areas =
        rest ++ [stackA, trapA] ∧
      stackA.vpn_range = ⟨lastLoadEnd elfOne.phs + 1, lastLoadEnd elfOne.phs + 3⟩ ∧
      stackA.map_type = MapType.Framed ∧
      stackA.map_perm = MapPermission.R ||| MapPermission.W ||| MapPermission.U ∧
      (∀ v, stackA.vpn_range.mem v →
        (((MemorySet.from_elf 0 elfOne k0).get (by decide)).1.page_table.translate
          v).isSome) ∧
      ((MemorySet.from_elf 0 elfOne k0).get (by decide)).2.2.1 =
        (lastLoadEnd elfOne.phs + 1) * PAGE_SIZE + USER_STACK_SIZE ∧
      USER_STACK_SIZE = 2 * PAGE_SIZE ∧
      ((MemorySet.from_elf 0 elfOne k0).get (by decide)).2.2.2 = elfOne.entry_point :=
  from_elf_user_stack 0 elfOne k0 ((MemorySet.from_elf 0 elfOne k0).get (by decide))
    (Option.some_get _).symm (by decide)

theorem page_interval_eq {p1 p2 a c1 c2 : Nat} (hc1 : c1 ≤ PAGE_SIZE)
    (hc2 : c2 ≤ PAGE_SIZE) (h1 : p1 * PAGE_SIZE ≤ a ∧ a < p1 * PAGE_SIZE + c1)
    (h2 : p2 * PAGE_SIZE ≤ a ∧ a < p2 * PAGE_SIZE + c2) : p1 = p2 := by
  have hps : PAGE_SIZE = 4096 := rfl
  rw [hps] at hc1 hc2 h1 h2
  omega


theorem iterCount_pos (n : Nat) : 0 < iterCount n := by
  unfold iterCount PAGE_SIZE
  omega

theorem copyPages_spec (pt : PageTable) :
    ∀ (fuel : Nat) (mem : PhysMem) (v : Nat) (data : Bytes) (p : Nat → Nat),
      iterCount data.size ≤ fuel →
      (∀ j, j < iterCount data.size →
        (pt.translate (v + j)).map PageTableEntry.ppn = some (p j)) →
      (∀ j1, j1 < iterCount data.size → ∀ j2, j2 < iterCount data.size →
        p j1 = p j2 → j1 = j2) →
      ∃ mem', copyPages fuel pt mem v data = some mem' ∧
        (∀ j, j < iterCount data.size →
          ∀ o, o < min PAGE_SIZE (data.size - j * PAGE_SIZE) →
          mem' (p j * PAGE_SIZE + o) = data.byte (j * PAGE_SIZE + o)) ∧
        (∀ addr, (∀ j, j < iterCount data.size →
          ¬(p j * PAGE_SIZE ≤ addr ∧
            addr < p j * PAGE_SIZE + min PAGE_SIZE (data.size - j * PAGE_SIZE))) →
          mem' addr = mem addr) := by
  intro fuel
  induction fuel with
  | zero =>
    intro mem v data p hfuel _ _
    have := iterCount_pos data.size
    omega
  | succ fuel ih =>
    intro mem v data p hfuel htr hinj
    have hps : PAGE_SIZE = 4096 := rfl
    have hiterpos := iterCount_pos data.size
    have h0 := htr 0 hiterpos
    rw [Option.map_eq_some'] at h0
    obtain ⟨pte, hpte, hppn⟩ := h0
    rw [Nat.add_zero] at hpte
    simp only [copyPages]
    rw [hpte]
    dsimp only
    by_cases hsmall : data.size ≤ PAGE_SIZE
    · rw [if_pos hsmall]
      rw [hps] at hsmall
      have hiter1 : iterCount data.size = 1 := by
        unfold iterCount
        rw [hps]
        omega
      refine ⟨_, rfl, ?_, ?_⟩
      · intro j hj o ho
        rw [hiter1] at hj
        have hj0 : j = 0 := by omega
        subst hj0
        simp only [Nat.zero_mul, Nat.sub_zero, Nat.zero_add] at ho ⊢
        have hoPS : o < 4096 := by rw [hps] at ho; omega
        unfold writeBytes
        rw [if_pos]
        · simp only [Bytes.take]
          have hidx : p 0 * PAGE_SIZE + o - pte.ppn * PAGE_SIZE = o := by
            rw [hppn]
            omega
          rw [hidx]
        · simp only [Bytes.take]
          rw [hppn, hps]
          rw [hps] at ho
          omega
      · intro addr haddr
        have h0' := haddr 0 hiterpos
        unfold writeBytes
        rw [if_neg]
        intro hc
        apply h0'
        simp only [Bytes.take] at hc
        rw [hppn] at hc
        simp only [Nat.zero_mul, Nat.sub_zero]
        exact ⟨hc.1, hc.2⟩
    · rw [if_neg hsmall]
      rw [hps] at hsmall
      have hdropsize : (data.drop PAGE_SIZE).size = data.size - 4096 := by
        simp only [Bytes.drop, hps]
      have hiter : iterCount (data.drop PAGE_SIZE).size = iterCount data.size - 1 := by
        unfold iterCount
        rw [hdropsize, hps]
        omega
      have hfuel' : iterCount (data.drop PAGE_SIZE).size ≤ fuel := by omega
      have htr' : ∀ j, j < iterCount (data.drop PAGE_SIZE).size →
          (pt.translate (v + 1 + j)).map PageTableEntry.ppn = some (p (j + 1)) := by
        intro j hj
        have heq : v + 1 + j = v + (j + 1) := by omega
        rw [heq]
        exact htr (j + 1) (by omega)
      have hinj' : ∀ j1, j1 < iterCount (data.drop PAGE_SIZE).size →
          ∀ j2, j2 < iterCount (data.drop PAGE_SIZE).size →
          p (j1 + 1) = p (j2 + 1) → j1 = j2 := by
        intro j1 hj1 j2 hj2 he
        have := hinj (j1 + 1) (by omega) (j2 + 1) (by omega) he
        omega
      obtain ⟨mem2, hmem2, hbytes2, hpres2⟩ :=
        ih (writeBytes mem (pte.ppn * PAGE_SIZE) (data.take PAGE_SIZE)) (v + 1)
          (data.drop PAGE_SIZE) (fun j => p (j + 1)) hfuel' htr' hinj'
      refine ⟨mem2, hmem2, ?_, ?_⟩
      · intro j hj o ho
        cases j with
        | zero =>
          simp only [Nat.zero_mul, Nat.sub_zero, Nat.zero_add] at ho ⊢
          have hoPS : o < 4096 := by rw [hps] at ho; omega
          rw [hpres2 (p 0 * PAGE_SIZE + o) ?side]
          case side =>
            intro j' hj' hc
            have hpage : p (j' + 1) = p 0 :=
              page_interval_eq (min_le_left _ _) (le_refl _) hc
                ⟨Nat.le_add_right _ _, by rw [hps]; omega⟩
            have := hinj (j' + 1) (by omega) 0 hiterpos hpage
            omega
          unfold writeBytes
          rw [if_pos]
          · simp only [Bytes.take]
            have hidx : p 0 * PAGE_SIZE + o - pte.ppn * PAGE_SIZE = o := by
              rw [hppn]
              omega
            rw [hidx]
          · simp only [Bytes.take]
            rw [hppn, hps]
            omega
        | succ j' =>
          have hj'lt : j' < iterCount (data.drop PAGE_SIZE).size := by omega
          have holt : o < min PAGE_SIZE ((data.drop PAGE_SIZE).size - j' * PAGE_SIZE) := by
            rw [hdropsize, hps]
            rw [hps] at ho
            omega
          have hb := hbytes2 j' hj'lt o holt
          rw [hb]
          simp only [Bytes.drop]
          have hidx2 : PAGE_SIZE + (j' * PAGE_SIZE + o) = (j' + 1) * PAGE_SIZE + o := by
            rw [hps]
            omega
          rw [hidx2]
      · intro addr haddr
        rw [hpres2 addr ?side2]
        case side2 =>
          intro j' hj' hc
          apply haddr (j' + 1) (by omega)
          refine ⟨hc.1, ?_⟩
          have h2 := hc.2
          rw [hdropsize] at h2
          rw [hps] at h2 ⊢
          omega
        unfold writeBytes
        rw [if_neg]
        intro hc
        apply haddr 0 hiterpos
        simp only [Bytes.take] at hc
        rw [hppn] at hc
        simp only [Nat.zero_mul, Nat.sub_zero]
        exact ⟨hc.1, hc.2⟩

theorem iterCount_le_fuel (n : Nat) : iterCount n ≤ n / PAGE_SIZE + 1 := by
  unfold iterCount PAGE_SIZE
  omega

theorem copy_data_framed_aux (a : MapArea) (pt : PageTable) (mem : PhysMem)
    (data : Bytes) (p : Nat → Nat)
    (ht : a.map_type = MapType.Framed)
    (hpages : iterCount data.size ≤ a.vpn_range.get_end - a.vpn_range.get_start)
    (htr : ∀ j, j < a.vpn_range.get_end - a.vpn_range.get_start →
      (pt.translate (a.vpn_range.get_start + j)).map PageTableEntry.ppn = some (p j))
    (hinj : ∀ j1, j1 < a.vpn_range.get_end - a.vpn_range.get_start →
      ∀ j2, j2 < a.vpn_range.get_end - a.vpn_range.get_start → p j1 = p j2 → j1 = j2)
    (hzero : ∀ j, j < a.vpn_range.get_end - a.vpn_range.get_start →
      ∀ o, o < PAGE_SIZE → mem (p j * PAGE_SIZE + o) = 0) :
    ∃ mem', a.copy_data pt mem data = some mem' ∧
      (∀ i, i < data.size →
        readVByte pt mem' (a.vpn_range.get_start * PAGE_SIZE + i) =
          some (data.byte i)) ∧
      (∀ i, data.size ≤ i →
        i < (a.vpn_range.get_end - a.vpn_range.get_start) * PAGE_SIZE →
        readVByte pt mem' (a.vpn_range.get_start * PAGE_SIZE + i) = some 0) ∧
      (∀ addr, (∀ j, j < a.vpn_range.get_end - a.vpn_range.get_start →
        ¬(p j * PAGE_SIZE ≤ addr ∧ addr < (p j + 1) * PAGE_SIZE)) →
        mem' addr = mem addr) := by
  have hps : PAGE_SIZE = 4096 := rfl
  have hfuel := iterCount_le_fuel data.size
  have htr' : ∀ j, j < iterCount data.size →
      (pt.translate (a.vpn_range.get_start + j)).map PageTableEntry.ppn = some (p j) :=
    fun j hj => htr j (by omega)
  have hinj' : ∀ j1, j1 < iterCount data.size → ∀ j2, j2 < iterCount data.size →
      p j1 = p j2 → j1 = j2 :=
    fun j1 h1 j2 h2 he => hinj j1 (by omega) j2 (by omega) he
  obtain ⟨mem', hcp, hbytes, hpres⟩ :=
    copyPages_spec pt (data.size / PAGE_SIZE + 1) mem a.vpn_range.get_start data p
      hfuel htr' hinj'
  have hdiv : ∀ i : Nat, (a.vpn_range.get_start * PAGE_SIZE + i) / PAGE_SIZE =
      a.vpn_range.get_start + i / PAGE_SIZE := by
    intro i
    rw [hps]
    omega
  have hmod : ∀ i : Nat, (a.vpn_range.get_start * PAGE_SIZE + i) % PAGE_SIZE =
      i % PAGE_SIZE := by
    intro i
    rw [hps]
    omega
  refine ⟨mem', ?_, ?_, ?_, ?_⟩
  · unfold MapArea.copy_data
    rw [if_pos ht]
    exact hcp
  · intro i hi
    have hjlt : i / PAGE_SIZE < iterCount data.size := by
      unfold iterCount
      rw [hps]
      omega
    have htj := htr (i / PAGE_SIZE) (by omega)
    rw [Option.map_eq_some'] at htj
    obtain ⟨pte, hpte, hppn⟩ := htj
    unfold readVByte
    rw [hdiv i, hmod i, hpte]
    simp only [Option.map_some']
    have hieq : i / PAGE_SIZE * PAGE_SIZE + i % PAGE_SIZE = i := by
      rw [hps]
      omega
    have hb := hbytes (i / PAGE_SIZE) hjlt (i % PAGE_SIZE) (by rw [hps]; rw [hps] at hieq; omega)
    rw [hppn, hb, hieq]
  · intro i hge hlt
    have hjpages : i / PAGE_SIZE < a.vpn_range.get_end - a.vpn_range.get_start := by
      rw [hps] at hlt ⊢
      omega
    have htj := htr (i / PAGE_SIZE) hjpages
    rw [Option.map_eq_some'] at htj
    obtain ⟨pte, hpte, hppn⟩ := htj
    unfold readVByte
    rw [hdiv i, hmod i, hpte]
    simp only [Option.map_some']
    have hieq : i / PAGE_SIZE * PAGE_SIZE + i % PAGE_SIZE = i := by
      rw [hps]
      omega
    rw [hppn]
    rw [hpres (p (i / PAGE_SIZE) * PAGE_SIZE + i % PAGE_SIZE) ?noChunk]
    case noChunk =>
      intro j' hj' hc
      by_cases hjj : j' = i / PAGE_SIZE
      · subst hjj
        have h2 := hc.2
        have hminle : min PAGE_SIZE (data.size - i / PAGE_SIZE * PAGE_SIZE) ≤
            data.size - i / PAGE_SIZE * PAGE_SIZE := min_le_right _ _
        rw [hps] at h2 hminle
        omega
      · have hpage : p j' = p (i / PAGE_SIZE) :=
          page_interval_eq (min_le_left _ _) (le_refl _) hc
            ⟨Nat.le_add_right _ _, by rw [hps]; omega⟩
        exact hjj (hinj j' (by omega) (i / PAGE_SIZE) hjpages hpage)
    · rw [hzero (i / PAGE_SIZE) hjpages (i % PAGE_SIZE) (by rw [hps]; omega)]
  · intro addr haddr
    apply hpres
    intro j hj hc
    apply haddr j (by omega)
    refine ⟨hc.1, ?_⟩
    have h2 := hc.2
    have hchunk : min PAGE_SIZE (data.size - j * PAGE_SIZE) ≤ PAGE_SIZE :=
      min_le_left _ _
    rw [hps] at h2 hchunk ⊢
    omega


/-- C7: for a frame-backed segment whose pages are mapped to pairwise-distinct,
pre-zeroed frames, `copy_data` succeeds and copies the buffer page by page,
translating each successive VPN through the page table: afterwards the first
`data.size` bytes of the segment (read virtually through the same table) equal
the buffer and every remaining byte up to the end of the covered pages keeps
its pre-zeroed value; on a segment that is not frame-backed, `copy_data` is
rejected (the source asserts the mapping policy). -/
theorem copy_data_framed_spec (a : MapArea) (pt : PageTable) (mem : PhysMem)
    (data : Bytes) (p : Nat → Nat)
    (ht : a.map_type = MapType.Framed)
    (hpages : iterCount data.size ≤ a.vpn_range.get_end - a.vpn_range.get_start)
    (htr : ∀ j, j < a.vpn_range.get_end - a.vpn_range.get_start →
      (pt.translate (a.vpn_range.get_start + j)).map PageTableEntry.ppn = some (p j))
    (hinj : ∀ j1, j1 < a.vpn_range.get_end - a.vpn_range.get_start →
      ∀ j2, j2 < a.vpn_range.get_end - a.vpn_range.get_start → p j1 = p j2 → j1 = j2)
    (hzero : ∀ j, j < a.vpn_range.get_end - a.vpn_range.get_start →
      ∀ o, o < PAGE_SIZE → mem (p j * PAGE_SIZE + o) = 0) :
    ∃ mem', a.copy_data pt mem data = some mem' ∧
      (∀ i, i < data.size →
        readVByte pt mem' (a.vpn_range.get_start * PAGE_SIZE + i) =
          some (data.byte i)) ∧
      (∀ i, data.size ≤ i →
        i < (a.vpn_range.get_end - a.vpn_range.get_start) * PAGE_SIZE →
        readVByte pt mem' (a.vpn_range.get_start * PAGE_SIZE + i) = some 0) ∧
      (∀ (b : MapArea) (pt2 : PageTable) (m2 : PhysMem) (d2 : Bytes),
        b.map_type ≠ MapType.Framed → b.copy_data pt2 m2 d2 = none) := by
  obtain ⟨mem', hcp, hreads, hzeros, _⟩ :=
    copy_data_framed_aux a pt mem data p ht hpages htr hinj hzero
  refine ⟨mem', hcp, hreads, hzeros, ?_⟩
  intro b pt2 m2 d2 hb
  unfold MapArea.copy_data
  rw [if_neg hb]

theorem copy_data_framed_spec_witness :
    ∃ mem', MapArea.copy_data ⟨⟨0, 1⟩, [(0, 5)], MapType.Framed, 18⟩ ⟨[(0, ⟨5, 19⟩)]⟩
        memZero ⟨2, fun _ => 17⟩ = some mem' ∧
      (∀ i, i < (⟨2, fun _ => 17⟩ : Bytes).size →
        readVByte ⟨[(0, ⟨5, 19⟩)]⟩ mem'
          ((⟨⟨0, 1⟩, [(0, 5)], MapType.Framed, 18⟩ : MapArea).vpn_range.get_start *
            PAGE_SIZE + i) = some ((⟨2, fun _ => 17⟩ : Bytes).byte i)) ∧
      (∀ i, (⟨2, fun _ => 17⟩ : Bytes).size ≤ i →
        i < ((⟨⟨0, 1⟩, [(0, 5)], MapType.Framed, 18⟩ : MapArea).vpn_range.get_end -
          (⟨⟨0, 1⟩, [(0, 5)], MapType.Framed, 18⟩ : MapArea).vpn_range.get_start) *
          PAGE_SIZE →
        readVByte ⟨[(0, ⟨5, 19⟩)]⟩ mem'
          ((⟨⟨0, 1⟩, [(0, 5)], MapType.Framed, 18⟩ : MapArea).vpn_range.get_start *
            PAGE_SIZE + i) = some 0) ∧
      (∀ (b : MapArea) (pt2 : PageTable) (m2 : PhysMem) (d2 : Bytes),
        b.map_type ≠ MapType.Framed → b.copy_data pt2 m2 d2 = none) :=
  copy_data_framed_spec ⟨⟨0, 1⟩, [(0, 5)], MapType.Framed, 18⟩ ⟨[(0, ⟨5, 19⟩)]⟩ memZero
    ⟨2, fun _ => 17⟩ (fun _ => 5) rfl (by decide) (by decide) (by decide)
    (fun _ _ _ _ => rfl)

theorem range_list_get (r : VPNRange) (j : Nat) (hj : j < r.list.length) :
    r.list.get ⟨j, hj⟩ = r.l + j := by
  simp [VPNRange.list]

theorem mapLoop_framed_fresh {L : List Nat} {a a' : MapArea} {pt pt' : PageTable}
    {k k' : Kernel} (ht : a.map_type = MapType.Framed) (hrec : k.fa.recycled = [])
    (h : a.mapLoop pt k L = some (a', pt', k')) :
    k'.fa.recycled = [] ∧ k'.fa.current = k.fa.current + L.length ∧
      k'.fa.end_ = k.fa.end_ ∧
      (∀ j, (hj : j < L.length) → pt'.translate (L.get ⟨j, hj⟩) =
        some ⟨k.fa.current + j, a.map_perm ||| PTEFlags.V⟩) ∧
      (∀ w, w ∉ L → pt'.translate w = pt.translate w) ∧
      (∀ addr, addr < k.fa.current * PAGE_SIZE → k'.mem addr = k.mem addr) ∧
      (∀ j, j < L.length → ∀ o, o < PAGE_SIZE →
        k'.mem ((k.fa.current + j) * PAGE_SIZE + o) = 0) := by
  induction L generalizing a pt k with
  | nil =>
    unfold MapArea.mapLoop at h
    injection h with hval
    injection hval with h1 h23
    injection h23 with h2 h3
    subst h1; subst h2; subst h3
    refine ⟨hrec, by simp, rfl, ?_, fun w _ => rfl, fun addr _ => rfl, ?_⟩
    · intro j hj
      simp at hj
    · intro j hj
      simp at hj
  | cons v rest ih =>
    unfold MapArea.mapLoop at h
    cases hm : a.map_one pt k v with
    | none => rw [hm] at h; cases h
    | some r =>
      obtain ⟨a1, pt1, k1⟩ := r
      rw [hm] at h
      unfold MapArea.map_one at hm
      rw [ht] at hm
      unfold Kernel.allocFrame FrameAllocator.alloc at hm
      rw [hrec] at hm
      dsimp only at hm
      by_cases hlt : k.fa.current < k.fa.end_
      · rw [if_pos hlt] at hm
        dsimp only at hm
        cases hpm : pt.map v k.fa.current a.map_perm with
        | none => rw [hpm] at hm; cases hm
        | some ptm =>
          rw [hpm] at hm
          injection hm with hval
          injection hval with h1 h23
          injection h23 with h2 h3
          subst h1; subst h2; subst h3
          dsimp only at h
          obtain ⟨hfree, hself, hother⟩ := translate_map_some hpm
          obtain ⟨ihrec, ihcur, ihend, ihget, ihout, ihmem, ihzero⟩ := ih rfl rfl h
          obtain ⟨_, _, _, _, grestnone, _⟩ := mapLoop_general h
          have hvrest : v ∉ rest := by
            intro hc
            have := grestnone v hc
            rw [hself] at this
            cases this
          refine ⟨ihrec, ?_, ihend, ?_, ?_, ?_, ?_⟩
          · rw [ihcur]
            dsimp only
            simp only [List.length_cons]
            omega
          · intro j hj
            cases j with
            | zero =>
              have : pt'.translate v = ptm.translate v := ihout v hvrest
              simp only [List.get]
              rw [this, hself, Nat.add_zero]
            | succ j' =>
              have hj' : j' < rest.length := by
                simp only [List.length_cons] at hj
                omega
              have := ihget j' hj'
              simp only [List.get]
              rw [this]
              dsimp only
              congr 2
              omega
          · intro w hw
            have hwv : w ≠ v := fun hc => hw (hc ▸ List.mem_cons_self v rest)
            have hwrest : w ∉ rest := fun hc => hw (List.mem_cons_of_mem v hc)
            rw [ihout w hwrest, hother w hwv]
          · intro addr haddr
            have hmlt : addr < (k.fa.current + 1) * PAGE_SIZE := by
              have : PAGE_SIZE = 4096 := rfl
              rw [this] at haddr ⊢
              omega
            have := ihmem addr (by dsimp only; exact hmlt)
            rw [this]
            unfold zeroPage
            dsimp only
            rw [if_neg]
            intro hc
            have : PAGE_SIZE = 4096 := rfl
            rw [this] at haddr hc
            omega
          · intro j hj o ho
            cases j with
            | zero =>
              have hlt1 : k.fa.current * PAGE_SIZE + o <
                  (k.fa.current + 1) * PAGE_SIZE := by
                have : PAGE_SIZE = 4096 := rfl
                rw [this] at ho ⊢
                omega
              have := ihmem (k.fa.current * PAGE_SIZE + o) (by dsimp only; exact hlt1)
              rw [Nat.add_zero, this]
              unfold zeroPage
              dsimp only
              rw [if_pos]
              exact ⟨Nat.le_add_right _ _, hlt1⟩
            | succ j' =>
              have hj' : j' < rest.length := by
                simp only [List.length_cons] at hj
                omega
              have := ihzero j' hj' o ho
              dsimp only at this
              have heq : k.fa.current + 1 + j' = k.fa.current + (j' + 1) := by omega
              rw [heq] at this
              exact this
      · rw [if_neg hlt] at hm
        dsimp only at hm
        cases hm

theorem push_framed_fresh {ms ms' : MemorySet} {k k' : Kernel} {area : MapArea}
    {data : Option Bytes}
    (ht : area.map_type = MapType.Framed) (hrec : k.fa.recycled = [])
    (hd : ∀ d, data = some d →
      iterCount d.size ≤ area.vpn_range.get_end - area.vpn_range.get_start)
    (h : ms.push k area data = some (ms', k')) :
    ∃ a', ms'.areas = ms.areas ++ [a'] ∧ a'.vpn_range = area.vpn_range ∧
      a'.map_type = MapType.Framed ∧ a'.map_perm = area.map_perm ∧
      k'.fa.recycled = [] ∧
      k'.fa.current =
        k.fa.current + (area.vpn_range.get_end - area.vpn_range.get_start) ∧
      (∀ j, j < area.vpn_range.get_end - area.vpn_range.get_start →
        ms'.page_table.translate (area.vpn_range.get_start + j) =
          some ⟨k.fa.current + j, area.map_perm ||| PTEFlags.V⟩) ∧
      (∀ w, (ms.page_table.translate w).isSome →
        ms'.page_table.translate w = ms.page_table.translate w) ∧
      (∀ addr, addr < k.fa.current * PAGE_SIZE → k'.mem addr = k.mem addr) ∧
      (∀ d, data = some d →
        (∀ i, i < d.size →
          readVByte ms'.page_table k'.mem
            (area.vpn_range.get_start * PAGE_SIZE + i) = some (d.byte i)) ∧
        (∀ i, d.size ≤ i →
          i < (area.vpn_range.get_end - area.vpn_range.get_start) * PAGE_SIZE →
          readVByte ms'.page_table k'.mem
            (area.vpn_range.get_start * PAGE_SIZE + i) = some 0)) := by
  have hps : PAGE_SIZE = 4096 := rfl
  unfold MemorySet.push at h
  cases hmap : area.map ms.page_table k with
  | none => rw [hmap] at h; cases h
  | some r =>
    obtain ⟨a1, pt1, k1⟩ := r
    rw [hmap] at h
    dsimp only at h
    obtain ⟨g1, g2, g3, gpres, gnone, _⟩ := mapLoop_general hmap
    obtain ⟨frec, fcur, fend, fget, fout, fmem, fzero⟩ := mapLoop_framed_fresh ht hrec hmap
    have hlen : area.vpn_range.list.length =
        area.vpn_range.get_end - area.vpn_range.get_start := range_list_length _
    have htrj : ∀ j, j < area.vpn_range.get_end - area.vpn_range.get_start →
        pt1.translate (area.vpn_range.get_start + j) =
          some ⟨k.fa.current + j, area.map_perm ||| PTEFlags.V⟩ := by
      intro j hj
      have hj' : j < area.vpn_range.list.length := by rw [hlen]; omega
      have := fget j hj'
      rw [range_list_get] at this
      exact this
    cases data with
    | none =>
      dsimp only at h
      injection h with hval
      injection hval with hms hk
      subst hms; subst hk
      refine ⟨a1, rfl, g1, g2.trans ht, g3, frec, ?_, htrj, gpres, fmem, ?_⟩
      · rw [fcur, hlen]
      · intro d hd'
        cases hd'
    | some d =>
      dsimp only at h
      cases hcd : a1.copy_data pt1 k1.mem d with
      | none => rw [hcd] at h; cases h
      | some mem2 =>
        rw [hcd] at h
        injection h with hval
        injection hval with hms hk
        subst hms; subst hk
        have hdle := hd d rfl
        have haux := copy_data_framed_aux a1 pt1 k1.mem d
          (fun j => k.fa.current + j) (g2.trans ht) (by rw [g1]; exact hdle)
          (by
            intro j hj
            rw [g1] at hj ⊢
            rw [htrj j hj]
            rfl)
          (by
            intro j1 h1 j2 h2 he
            have he' : k.fa.current + j1 = k.fa.current + j2 := he
            omega)
          (by
            intro j hj o ho
            rw [g1] at hj
            exact fzero j (by rw [hlen]; omega) o ho)
        obtain ⟨mem2', hcd', hreads, hzeros, houtside⟩ := haux
        rw [hcd] at hcd'
        injection hcd' with hmem2
        subst hmem2
        refine ⟨a1, rfl, g1, g2.trans ht, g3, frec, ?_, htrj, gpres, ?_, ?_⟩
        · rw [fcur, hlen]
        · intro addr haddr
          dsimp only
          rw [houtside addr ?out]
          case out =>
            intro j hj hc
            have h1 : (k.fa.current + j) * PAGE_SIZE ≤ addr := hc.1
            rw [hps] at h1 haddr
            omega
          exact fmem addr haddr
        · intro d2 hd2
          injection hd2 with hd2
          subst hd2
          constructor
          · intro i hi
            have := hreads i hi
            rw [g1] at this
            exact this
          · intro i hge hlt
            have := hzeros i hge (by rw [g1]; exact hlt)
            rw [g1] at this
            exact this

theorem readVByte_mono (pt pt' : PageTable) (mem mem' : PhysMem) (va bound : Nat)
    (pte : PageTableEntry) (hpte : pt.translate (va / PAGE_SIZE) = some pte)
    (hq : pte.ppn < bound)
    (hpt : ∀ w, (pt.translate w).isSome → pt'.translate w = pt.translate w)
    (hmem : ∀ addr, addr < bound * PAGE_SIZE → mem' addr = mem addr) :
    readVByte pt' mem' va = readVByte pt mem va := by
  unfold readVByte
  rw [hpt _ (by rw [hpte]; rfl), hpte]
  simp only [Option.map_some']
  congr 1
  apply hmem
  have hps : PAGE_SIZE = 4096 := rfl
  simp only [hps] at hq ⊢
  omega

theorem phPerm_bits (ph : ProgHeader) :
    phPerm ph &&& MapPermission.U ≠ 0 ∧
      ((phPerm ph &&& MapPermission.R ≠ 0) ↔ ph.is_read = true) ∧
      ((phPerm ph &&& MapPermission.W ≠ 0) ↔ ph.is_write = true) ∧
      ((phPerm ph &&& MapPermission.X ≠ 0) ↔ ph.is_execute = true) := by
  unfold phPerm
  rcases h1 : ph.is_read <;> rcases h2 : ph.is_write <;> rcases h4 : ph.is_execute <;>
    simp_all [MapPermission.U, MapPermission.R, MapPermission.W, MapPermission.X] <;>
    decide

theorem phSegProp_mono {input : Bytes} {ph : ProgHeader} {pt pt' : PageTable}
    {mem mem' : PhysMem} {areas areas' : List MapArea} {bound bound' : Nat}
    (hp : phSegProp input ph pt mem areas bound)
    (hpt : ∀ w, (pt.translate w).isSome → pt'.translate w = pt.translate w)
    (hmem : ∀ addr, addr < bound * PAGE_SIZE → mem' addr = mem addr)
    (hsub : ∀ a ∈ areas, a ∈ areas')
    (hb : bound ≤ bound') :
    phSegProp input ph pt' mem' areas' bound' := by
  have hps : PAGE_SIZE = 4096 := rfl
  obtain ⟨a, ha, hr, htp, hpm, hfs, htr, hrd, hz⟩ := hp
  have hbyte : ∀ i, i < (a.vpn_range.get_end - a.vpn_range.get_start) * PAGE_SIZE →
      readVByte pt' mem' (a.vpn_range.get_start * PAGE_SIZE + i) =
        readVByte pt mem (a.vpn_range.get_start * PAGE_SIZE + i) := by
    intro i hi
    have hj : i / PAGE_SIZE < a.vpn_range.get_end - a.vpn_range.get_start := by
      rw [hps] at hi ⊢
      omega
    obtain ⟨q, hq, hqb⟩ := htr (i / PAGE_SIZE) hj
    have hdiv : (a.vpn_range.get_start * PAGE_SIZE + i) / PAGE_SIZE =
        a.vpn_range.get_start + i / PAGE_SIZE := by
      rw [hps]
      omega
    exact readVByte_mono pt pt' mem mem' (a.vpn_range.get_start * PAGE_SIZE + i) bound
      ⟨q, phPerm ph ||| PTEFlags.V⟩ (by rw [hdiv]; exact hq) hqb hpt hmem
  refine ⟨a, hsub a ha, hr, htp, hpm, hfs, ?_, ?_, ?_⟩
  · intro j hj
    obtain ⟨q, hq, hqb⟩ := htr j hj
    refine ⟨q, ?_, by omega⟩
    rw [hpt _ (by rw [hq]; rfl), hq]
  · intro i hi
    have hi' : i < (a.vpn_range.get_end - a.vpn_range.get_start) * PAGE_SIZE :=
      lt_of_lt_of_le hi hfs
    rw [hbyte i hi']
    exact hrd i hi
  · intro i hge hlt
    rw [hbyte i hlt]
    exact hz i hge hlt

theorem elfLoop_segProps {input : Bytes} {phs : List ProgHeader} {ms : MemorySet}
    {k : Kernel} {me : Nat} {r : MemorySet × Kernel × Nat}
    (h : elfLoop input phs ms k me = some r)
    (hrec : k.fa.recycled = [])
    (hfit : ∀ ph ∈ phs, ph.ptype = PhType.Load →
      iterCount ph.file_size ≤
        (phArea ph).vpn_range.get_end - (phArea ph).vpn_range.get_start) :
    r.2.1.fa.recycled = [] ∧
    k.fa.current ≤ r.2.1.fa.current ∧
    r.1.areas.length = ms.areas.length + loadCount phs ∧
    (∀ a ∈ ms.areas, a ∈ r.1.areas) ∧
    (∀ w, (ms.page_table.translate w).isSome →
      r.1.page_table.translate w = ms.page_table.translate w) ∧
    (∀ addr, addr < k.fa.current * PAGE_SIZE → r.2.1.mem addr = k.mem addr) ∧
    (∀ ph ∈ phs, ph.ptype = PhType.Load →
      phSegProp input ph r.1.page_table r.2.1.mem r.1.areas r.2.1.fa.current) := by
  induction phs generalizing ms k me with
  | nil =>
    unfold elfLoop at h
    injection h with h
    subst h
    refine ⟨hrec, le_refl _, by simp [loadCount], fun a ha => ha, fun w _ => rfl,
      fun addr _ => rfl, fun ph hm _ => absurd hm (List.not_mem_nil ph)⟩
  | cons ph rest ih =>
    unfold elfLoop at h
    cases hpt : ph.ptype with
    | Other =>
      rw [hpt] at h
      obtain ⟨c1, c2, c3, c4, c5, c6, c7⟩ :=
        ih h hrec (fun ph' hm hl => hfit ph' (List.mem_cons_of_mem _ hm) hl)
      have hlc : loadCount (ph :: rest) = loadCount rest := by
        simp [loadCount, List.filter_cons, hpt]
      refine ⟨c1, c2, by rw [hlc]; exact c3, c4, c5, c6, ?_⟩
      intro ph' hm hl'
      rcases List.mem_cons.mp hm with hEq | hm'
      · subst hEq
        rw [hpt] at hl'
        cases hl'
      · exact c7 ph' hm' hl'
    | Load =>
      rw [hpt] at h
      dsimp only at h
      by_cases hb : ph.offset + ph.file_size ≤ input.size
      · rw [if_pos hb] at h
        cases hpush : ms.push k (phArea ph) (some (input.slice ph.offset ph.file_size)) with
        | none => rw [hpush] at h; cases h
        | some r1 =>
          obtain ⟨ms1, k1⟩ := r1
          rw [hpush] at h
          have hfit0 := hfit ph (List.mem_cons_self ph rest) hpt
          obtain ⟨a', hl, hrg, htA, hpA, krec1, kcur1, htrj, hpres1, hmem1, hdata⟩ :=
            push_framed_fresh rfl hrec
              (fun d hd' => by
                injection hd' with hd'
                subst hd'
                exact hfit0)
              hpush
          obtain ⟨hrd, hzd⟩ := hdata _ rfl
          have hfsb : ph.file_size ≤
              ((phArea ph).vpn_range.get_end - (phArea ph).vpn_range.get_start) *
                PAGE_SIZE := by
            have hps : PAGE_SIZE = 4096 := rfl
            unfold iterCount at hfit0
            rw [hps] at hfit0 ⊢
            omega
          have hmema : a' ∈ ms1.areas := by
            rw [hl]
            exact List.mem_append_right _ (by simp)
          have hprop1 : phSegProp input ph ms1.page_table k1.mem ms1.areas
              k1.fa.current := by
            refine ⟨a', hmema, hrg.trans rfl, htA, hpA, ?_, ?_, ?_, ?_⟩
            · rw [hrg]
              exact hfsb
            · intro j hj
              rw [hrg] at hj ⊢
              refine ⟨k.fa.current + j, ?_, ?_⟩
              · rw [htrj j hj]
                rfl
              · rw [kcur1]
                exact Nat.add_lt_add_left hj _
            · intro i hi
              rw [hrg]
              exact hrd i hi
            · intro i hge hlt
              rw [hrg] at hlt ⊢
              exact hzd i hge hlt
          obtain ⟨frec, fcur, flen, fsub, fpres, fmem, fprops⟩ :=
            ih h krec1 (fun ph' hm hl' => hfit ph' (List.mem_cons_of_mem _ hm) hl')
          have hlc : loadCount (ph :: rest) = loadCount rest + 1 := by
            simp [loadCount, List.filter_cons, hpt]
          refine ⟨frec, ?_, ?_, ?_, ?_, ?_, ?_⟩
          · refine le_trans ?_ fcur
            rw [kcur1]
            exact Nat.le_add_right _ _
          · rw [flen, hl, List.length_append, hlc]
            simp only [List.length_singleton]
            omega
          · intro a ha
            exact fsub a (by rw [hl]; exact List.mem_append_left _ ha)
          · intro w hw
            have h1 := hpres1 w hw
            have h2 := fpres w (by rw [h1]; exact hw)
            rw [h2, h1]
          · intro addr haddr
            have hlt1 : addr < k1.fa.current * PAGE_SIZE := by
              have hps : PAGE_SIZE = 4096 := rfl
              rw [kcur1, hps]
              rw [hps] at haddr
              omega
            exact (fmem addr hlt1).trans (hmem1 addr haddr)
          · intro ph' hm hl'
            rcases List.mem_cons.mp hm with hEq | hm'
            · subst hEq
              exact phSegProp_mono hprop1 fpres fmem fsub fcur
            · exact fprops ph' hm' hl'
      · rw [if_neg hb] at h
        cases h

/-- C6: for every ELF image accepted by `from_elf` from a fresh-frame allocator
(no recycled frames) in which every loadable header's `file_size` fits the
page-rounded span of its segment, `from_elf` creates exactly one frame-backed
segment per loadable header (the only other segments are the user stack and the
trap context, hence `loadCount + 2` in total), spanning the page-rounded
`[virtual_addr, virtual_addr + mem_size)` with User always set and
Read/Write/Execute exactly per the header flags, every page mapped with those
permissions; the header's `file_size` bytes of the image read back through the
page table, and the bytes beyond `file_size` up to the end of the covered pages
read as zero. -/
theorem from_elf_loads_segments (sPA : Nat) (elf : ElfFile) (k : Kernel)
    (r : MemorySet × Kernel × Nat × Nat)
    (h : MemorySet.from_elf sPA elf k = some r)
    (hrec : k.fa.recycled = [])
    (hfit : ∀ ph ∈ elf.phs, ph.ptype = PhType.Load →
      iterCount ph.file_size ≤
        (phArea ph).vpn_range.get_end - (phArea ph).vpn_range.get_start) :
    r.1.areas.length = loadCount elf.phs + 2 ∧
    ∀ ph ∈ elf.phs, ph.ptype = PhType.Load →
      ∃ a ∈ r.1.areas,
        a.vpn_range = ⟨vaFloor ph.virtual_addr,
          vaCeil ((ph.virtual_addr + ph.mem_size) % USIZE)⟩ ∧
        a.map_type = MapType.Framed ∧
        a.map_perm = phPerm ph ∧
        phPerm ph &&& MapPermission.U ≠ 0 ∧
        ((phPerm ph &&& MapPermission.R ≠ 0) ↔ ph.is_read = true) ∧
        ((phPerm ph &&& MapPermission.W ≠ 0) ↔ ph.is_write = true) ∧
        ((phPerm ph &&& MapPermission.X ≠ 0) ↔ ph.is_execute = true) ∧
        (∀ j, j < a.vpn_range.get_end - a.vpn_range.get_start →
          ∃ q, r.1.page_table.translate (a.vpn_range.get_start + j) =
            some ⟨q, phPerm ph ||| PTEFlags.V⟩) ∧
        (∀ i, i < ph.file_size →
          readVByte r.1.page_table r.2.1.mem
            (a.vpn_range.get_start * PAGE_SIZE + i) =
            some (elf.input.byte (ph.offset + i))) ∧
        (∀ i, ph.file_size ≤ i →
          i < (a.vpn_range.get_end - a.vpn_range.get_start) * PAGE_SIZE →
          readVByte r.1.page_table r.2.1.mem
            (a.vpn_range.get_start * PAGE_SIZE + i) = some 0) := by
  unfold MemorySet.from_elf at h
  rw [Option.bind_eq_some] at h
  obtain ⟨ms1, hmt, h⟩ := h
  by_cases hmg : elf.magic = [0x7f, 0x45, 0x4c, 0x46]
  · rw [if_pos hmg] at h
    rw [Option.bind_eq_some] at h
    obtain ⟨r2, hel, h⟩ := h
    dsimp only at h
    rw [Option.bind_eq_some] at h
    obtain ⟨r3, hp3, h⟩ := h
    obtain ⟨ms3, k3⟩ := r3
    rw [Option.bind_eq_some] at h
    obtain ⟨r4, hp4, h⟩ := h
    obtain ⟨ms4, k4⟩ := r4
    injection h with h
    obtain ⟨hms1a, _, _⟩ := map_trampoline_spec hmt
    obtain ⟨erec, ecur, elen, esub, epres, emem, eprops⟩ :=
      elfLoop_segProps hel hrec hfit
    obtain ⟨a3, hl3, _, _, _, krec3, kcur3, _, hpres3, hmem3, _⟩ :=
      push_framed_fresh rfl erec (fun d hd' => by cases hd') hp3
    obtain ⟨a4, hl4, _, _, _, _, kcur4, _, hpres4, hmem4, _⟩ :=
      push_framed_fresh rfl krec3 (fun d hd' => by cases hd') hp4
    constructor
    · rw [← h]
      dsimp only
      rw [hl4, hl3, List.length_append, List.length_append, elen, hms1a]
      simp only [List.length_singleton]
      dsimp only [MemorySet.new_bare]
      simp only [List.length_nil]
      omega
    · intro ph hm hload
      have hp0 := eprops ph hm hload
      have hb3 : r2.2.1.fa.current ≤ k3.fa.current := by
        rw [kcur3]
        exact Nat.le_add_right _ _
      have hsub3 : ∀ a ∈ r2.1.areas, a ∈ ms3.areas := by
        intro a ha
        rw [hl3]
        exact List.mem_append_left _ ha
      have hp1 := phSegProp_mono hp0 hpres3 hmem3 hsub3 hb3
      have hb4 : k3.fa.current ≤ k4.fa.current := by
        rw [kcur4]
        exact Nat.le_add_right _ _
      have hsub4 : ∀ a ∈ ms3.areas, a ∈ ms4.areas := by
        intro a ha
        rw [hl4]
        exact List.mem_append_left _ ha
      have hp2 := phSegProp_mono hp1 hpres4 hmem4 hsub4 hb4
      obtain ⟨a, ha, har, hat, hap, _, htr, hrd, hz⟩ := hp2
      obtain ⟨pu, pr, pw, px⟩ := phPerm_bits ph
      rw [← h]
      dsimp only
      exact ⟨a, ha, har, hat, hap, pu, pr, pw, px,
        fun j hj => (htr j hj).imp (fun q hq => hq.1), hrd, hz⟩
  · rw [if_neg hmg] at h
    cases h

/-- C6 counterexample: `elfClobber` is accepted by `from_elf`, but its second
loadable header's `file_size` (8193) exceeds its two-page span, so its
`copy_data` walks one page past its own segment through the page table into the
first header's first frame: the byte the first header's segment should read
back — `input.byte 0 = 0`, its `file_size` being 1 — instead reads as 161
(`input.byte 8193`), refuting the per-header copy guarantee as stated. -/
theorem from_elf_clobber_cex :
    ((MemorySet.from_elf 0 elfClobber k0).map
      (fun r => (readVByte r.1.page_table r.2.1.mem (4 * 4096),
        elfClobber.input.byte 0, r.1.areas.length))) =
      some (some 161, 0, 5) ∧
    elfClobber.phs.head?.map (fun ph => (ph.virtual_addr, ph.offset, ph.file_size)) =
      some (4 * 4096, 0, 1) ∧
    (161 : UInt8) ≠ 0 := by
  exact ⟨by decide, by decide, by decide⟩

theorem from_elf_loads_segments_witness :
    MemorySet.from_elf 0 elfOne k0 =
      some ((MemorySet.from_elf 0 elfOne k0).get (by decide)) ∧
    k0.fa.recycled = [] ∧
    (∀ ph ∈ elfOne.phs, ph.ptype = PhType.Load →
      iterCount ph.file_size ≤
        (phArea ph).vpn_range.get_end - (phArea ph).vpn_range.get_start) ∧
    ((MemorySet.from_elf 0 elfOne k0).get (by decide)).1.areas.length =
      loadCount elfOne.phs + 2 := by
  refine ⟨(Option.some_get _).symm, rfl, by decide, ?_⟩
  exact (from_elf_loads_segments 0 elfOne k0
    ((MemorySet.from_elf 0 elfOne k0).get (by decide))
    (Option.some_get _).symm rfl (by decide)).1
